import Mathlib

/-!
A verification development for `fcompile`, an incremental Fortran build tool.

The Python source is shallowly embedded: strings are `List Char`, Python
dicts are association lists, Python sets are duplicate-free lists in
insertion order, exceptions are `Option`/`Except`, and the event loop is a
trace-driven transition system.  External primitives (SHA-1, `repr`,
the filesystem, the JSON parser) are parameters of the definitions that
use them.
-/

set_option autoImplicit false

namespace Fcompile

/-- Strings are modelled as lists of characters. -/
abbrev Str := List Char

/-- Python's `\s` character class (`str.lstrip`, `re` whitespace), ASCII part. -/
def pySpace (c : Char) : Bool :=
  c = ' ' || c = '\t' || c = '\n' || c = '\r' || c = '\x0b' || c = '\x0c'

/-- Python's `\w` character class (regex word character), ASCII part. -/
def wordChar (c : Char) : Bool :=
  c.isAlpha || c.isDigit || c = '_'

/-- Python's `str.lower`, ASCII part. -/
def lowerStr (s : Str) : Str := s.map Char.toLower

/-! ### Association lists (Python `dict`) -/

/-- Python `d.get(k)` / `k in d`: first binding of `k`, if any. -/
def alLookup {α : Type} (k : Str) : List (Str × α) → Option α
  | [] => none
  | (k', v) :: l => if k' = k then some v else alLookup k l

/-- Python `d.pop(k, None)`: drop the binding of `k`. -/
def alErase {α : Type} (k : Str) (l : List (Str × α)) : List (Str × α) :=
  l.filter (fun p => ¬ p.1 = k)

/-- Python `d[k] = v`: replace the binding of `k` in place, else append. -/
def alInsert {α : Type} (k : Str) (v : α) : List (Str × α) → List (Str × α)
  | [] => [(k, v)]
  | (k', v') :: l => if k' = k then (k, v) :: l else (k', v') :: alInsert k v l

/-! ### The parser (`parse_modules`, fcompile.py lines 37-62)

A Python text-mode file iterates line by line; every line except possibly
the last ends in `'\n'`.  `parse_modules` is modelled on the list of those
line strings.  The regex call `re.match(r'module\s+(\w+)\s*', line,
re.IGNORECASE)` can return `None`, and `.group(1)` then raises
`AttributeError`; the model returns `none` for the whole parse in that
case. -/

/-- One action of the per-line scan of `parse_modules`. -/
inductive LAct : Type where
  | skip : LAct
  | adddef (m : Str) : LAct
  | adduse (m : Str) : LAct
  | fail : LAct
deriving DecidableEq

/-- Model of `re.match(kw + r'\s+(\w+)\s*', line, re.IGNORECASE).group(1)`:
the keyword literal matched case-insensitively at the start, then at least
one whitespace character, then a maximal run of word characters (the
group).  `none` models `re.match` returning `None`.  Backtracking cannot
help the regex here because `\s` and `\w` are disjoint. -/
def extractKw (kw : Str) (line : Str) : Option Str :=
  if lowerStr (line.take kw.length) = kw then
    let rest := line.drop kw.length
    match rest with
    | [] => none
    | c :: _ =>
      if pySpace c then
        match rest.dropWhile pySpace with
        | [] => none
        | d :: ds => if wordChar d then some ((d :: ds).takeWhile wordChar) else none
      else none
  else none

/-- The body of the `for line in f` loop of `parse_modules` for a single
line: strip leading whitespace, skip blank and `!` lines, split off the
word before the first `' '`, and dispatch on `module` / `use`. -/
def lineAct (line : Str) : LAct :=
  let s := line.dropWhile pySpace
  match s with
  | [] => .skip
  | c :: _ =>
    if c = '!' then .skip
    else
      let word := lowerStr (s.takeWhile (fun ch => ¬ ch = ' '))
      if word = ("module").toList then
        match extractKw ("module").toList s with
        | none => .fail
        | some ident =>
          if lowerStr ident = ("procedure").toList then .skip else .adddef (lowerStr ident)
      else if word = ("use").toList then
        match extractKw ("use").toList s with
        | none => .fail
        | some ident => .adduse (lowerStr ident)
      else .skip

/-- Accumulating loop of `parse_modules`, parameterised by the per-line
action function: `n` counts lines, `defs` is the `defined` list, `uses`
the `used` set in insertion order. -/
def pmGo (act : Str → LAct) : List Str → Nat → List Str → List Str →
    Option (Nat × List Str × List Str)
  | [], n, defs, uses => some (n, defs, uses.filter (fun u => ¬ defs.contains u))
  | l :: ls, n, defs, uses =>
    match act l with
    | .fail => none
    | .skip => pmGo act ls (n + 1) defs uses
    | .adddef m => pmGo act ls (n + 1) (defs ++ [m]) uses
    | .adduse m => pmGo act ls (n + 1) defs (if uses.contains m then uses else uses ++ [m])

/-- `parse_modules` (fcompile.py lines 37-62): line count, list of defined
modules, set of used modules minus the defined ones.  `none` models the
uncaught `AttributeError` when an identifier is missing after a keyword. -/
def parse_modules (lines : List Str) : Option (Nat × List Str × List Str) :=
  pmGo lineAct lines 0 [] []

/-- Per-line action exactly as claim C6 words it: the first
*whitespace*-delimited word selects the keyword. -/
def lineActClaim (line : Str) : LAct :=
  let s := line.dropWhile pySpace
  match s with
  | [] => .skip
  | c :: _ =>
    if c = '!' then .skip
    else
      let word := lowerStr (s.takeWhile (fun ch => ¬ pySpace ch))
      if word = ("module").toList then
        match extractKw ("module").toList s with
        | none => .fail
        | some ident =>
          if lowerStr ident = ("procedure").toList then .skip else .adddef (lowerStr ident)
      else if word = ("use").toList then
        match extractKw ("use").toList s with
        | none => .fail
        | some ident => .adduse (lowerStr ident)
      else .skip

/-- The parser claim C6 describes, stated with whitespace-delimited words. -/
def parseModulesClaim (lines : List Str) : Option (Nat × List Str × List Str) :=
  pmGo lineActClaim lines 0 [] []

/-- Identifier extraction as the amended claim words it, operating on the
remainder of the line after the keyword word: one or more whitespace
characters, then a maximal run of word characters. -/
def specIdent (rest : Str) : Option Str :=
  match rest with
  | [] => none
  | c :: _ =>
    if pySpace c then
      match rest.dropWhile pySpace with
      | [] => none
      | d :: ds => if wordChar d then some ((d :: ds).takeWhile wordChar) else none
    else none

/-- Per-line action as the amended claim C6 words it: strip leading
whitespace; skip empty lines and comment lines; the first *space*-delimited
word, lowercased, selects the keyword, and the identifier is extracted
from the remainder of the line. -/
def lineActSpec (line : Str) : LAct :=
  let s := line.dropWhile pySpace
  match s with
  | [] => .skip
  | c :: _ =>
    if c = '!' then .skip
    else
      let w := s.takeWhile (fun ch => ¬ ch = ' ')
      let rest := s.drop w.length
      if lowerStr w = ("module").toList then
        match specIdent rest with
        | none => .fail
        | some ident =>
          if lowerStr ident = ("procedure").toList then .skip else .adddef (lowerStr ident)
      else if lowerStr w = ("use").toList then
        match specIdent rest with
        | none => .fail
        | some ident => .adduse (lowerStr ident)
      else .skip

/-- The parser of the amended claim C6. -/
def parseModulesSpec (lines : List Str) : Option (Nat × List Str × List Str) :=
  pmGo lineActSpec lines 0 [] []

/-! ### Priorities (`get_priority`, fcompile.py lines 65-83)

`get_priority` computes `p(n) = 1 + Σ p(c)` over the children of `n` by a
memoized recursion that terminates exactly on acyclic graphs.  The model
computes the same values with a fuel argument; on a graph that admits a
rank function (equivalently, an acyclic finite graph) the value is
independent of the fuel once the fuel exceeds the node's rank. -/

/-- Fuel-indexed evaluation of the `get_priority` recursion
`p(n) = 1 + Σ p(c), c ∈ children n`. -/
def getPriorityF (children : Str → List Str) : Nat → Str → Nat
  | 0, _ => 0
  | fuel + 1, s => 1 + ((children s).map (getPriorityF children fuel)).sum

/-- A rank function witnessing acyclicity: every edge strictly decreases it. -/
def RankDec (children : Str → List Str) (rk : Str → Nat) : Prop :=
  ∀ s c, c ∈ children s → rk c < rk s

/-- The priority of a node of an acyclic graph: the stable value of the
fuel-indexed recursion. -/
def priorityOf (children : Str → List Str) (rk : Str → Nat) (s : Str) : Nat :=
  getPriorityF children (rk s + 1) s

/-- `d` is a strict ancestor of `s`: `s` is reachable from `d` through one
or more child edges (in `get_tree`'s priority graph an edge goes from the
definer of a module to each source that uses it). -/
def StrictAnc (children : Str → List Str) (d s : Str) : Prop :=
  Relation.TransGen (fun a b => b ∈ children a) d s

/-- Fuel-indexed transitive closure modelling `get_ancestors`
(fcompile.py lines 86-105). -/
def getAncestorsF (children : Str → List Str) : Nat → Str → List Str
  | 0, _ => []
  | fuel + 1, s =>
    ((children s) ++ (children s).flatMap (getAncestorsF children fuel)).dedup

/-! ### The hasher (`get_hash`, fcompile.py lines 108-115)

`get_hash(path, tpl)` feeds `repr(tpl)` (when a tuple is given) followed by
the file bytes to SHA-1.  SHA-1 itself and Python's `repr` are external
primitives and enter the model as parameters `sha1` and `reprT`. -/

/-- `get_hash`: digest of the optional argument tuple's `repr` followed by
the file bytes. -/
def get_hash (sha1 : Str → Str) (reprT : List Str → Str)
    (tpl : Option (List Str)) (contents : Str) : Str :=
  sha1 ((match tpl with | none => [] | some t => reprT t) ++ contents)

/-! ### The graph builder (`get_tree`, fcompile.py lines 159-206) -/

/-- One compilation task as read from the manifest: the source path, the
file's bytes at that path, the argument tuple, and the include
directories. -/
structure PTask where
  source : Str
  content : Str
  args : List Str
  includes : List Str
deriving DecidableEq

/-- The exceptions `get_tree` can raise: `AttributeError` escaping from
`parse_modules`, `ModuleMultipleDefined`, `ModuleNotDefined`, and the
`KeyError` from `set.remove` in the include-pruning loop. -/
inductive TErr : Type where
  | parseFail (src : Str) : TErr
  | multipleDefined (m : Str) (srcs : List Str) : TErr
  | notDefined (m : Str) : TErr
  | keyError : TErr
deriving DecidableEq

/-- The `TaskTree` produced by `get_tree` (fcompile.py lines 118-134).
`priority` and `ancestors` are total functions obtained from the
fuel-indexed recursions with fuel exceeding any chain length. -/
structure GTree where
  src_mods : List (Str × List Str)
  mod_uses : List (Str × List Str)
  hashes : List (Str × Str)
  line_nums : List (Str × Nat)
  priority : Str → Nat
  ancestors : Str → List Str

/-- Accumulator of the first loop of `get_tree`. -/
structure P1 where
  src_mods : List (Str × List Str)
  mod_defs : List (Str × Str)
  src_deps : List (Str × List Str)
  hashes : List (Str × Str)
  line_nums : List (Str × Nat)

/-- Python's iteration over a text file: split after every `'\n'`. -/
def splitGo (acc : Str) : Str → List Str
  | [] => if acc = [] then [] else [acc.reverse]
  | c :: cs => if c = '\n' then (acc.reverse ++ ['\n']) :: splitGo [] cs else splitGo (c :: acc) cs

/-- The list of lines `for line in f` yields for a file with the given
bytes: every line keeps its trailing `'\n'`; the last may lack one. -/
def pySplitLines (s : Str) : List Str := splitGo [] s

/-- The `for module in defined` loop of `get_tree` (lines 173-177): record
each defined module's source, raising `ModuleMultipleDefined(module,
[first_source, second_source])` on a collision. -/
def defLoop (src : Str) : List (Str × Str) → List Str → Except TErr (List (Str × Str))
  | md, [] => .ok md
  | md, m :: ms =>
    match alLookup m md with
    | some s0 => .error (.multipleDefined m [s0, src])
    | none => defLoop src (md ++ [(m, src)]) ms

/-- The first loop of `get_tree` (lines 166-177): parse and hash every
task, filling `src_mods`, `src_deps`, `line_nums`, `hashes`, `mod_defs`. -/
def phase1 (sha1 : Str → Str) (reprT : List Str → Str) :
    List (Str × PTask) → P1 → Except TErr P1
  | [], acc => .ok acc
  | (src, t) :: rest, acc =>
    match parse_modules (pySplitLines t.content) with
    | none => .error (.parseFail src)
    | some (n, defined, used) =>
      let acc1 : P1 :=
        { src_mods := acc.src_mods ++ [(src, defined)]
          mod_defs := acc.mod_defs
          src_deps := acc.src_deps ++ [(src, used)]
          hashes := acc.hashes ++ [(src, get_hash sha1 reprT (some t.args) t.content)]
          line_nums := acc.line_nums ++ [(src, n)] }
      match defLoop src acc1.mod_defs defined with
      | .error e => .error e
      | .ok md => phase1 sha1 reprT rest { acc1 with mod_defs := md }

/-- Lines 178-182 of `get_tree`: drop `iso_c_binding` from every used set,
and drop `mpi` from every used set iff no source defines `mpi`. -/
def phase2 (modDefs : List (Str × Str)) (deps : List (Str × List Str)) :
    List (Str × List Str) :=
  let d1 := deps.map (fun p => (p.1, p.2.filter (fun m => ¬ m = ("iso_c_binding").toList)))
  if alLookup (("mpi").toList) modDefs = none then
    d1.map (fun p => (p.1, p.2.filter (fun m => ¬ m = ("mpi").toList)))
  else d1

/-- The `for incdir, module in product(...)` loop (lines 186-188).
`itertools.product` snapshots the used set before the loop runs, and
`set.remove` raises `KeyError` when the module was already removed. -/
def prLoop (mx : Str → Str → Bool) : List Str → List (Str × Str) → Except TErr (List Str)
  | cur, [] => .ok cur
  | cur, (d, m) :: ps =>
    if mx d (m ++ (".mod").toList) then
      if m ∈ cur then prLoop mx (cur.erase m) ps else .error .keyError
    else prLoop mx cur ps

/-- Include pruning for one task: iterate over the snapshot product of the
include directories and the task's current used set. -/
def pruneTask (mx : Str → Str → Bool) (includes : List Str) (deps : List Str) :
    Except TErr (List Str) :=
  prLoop mx deps (includes.flatMap (fun d => deps.map (fun m => (d, m))))

/-- Lines 183-188 of `get_tree`: prune every task's used set by its
include directories.  `mx dir fname` models `(dir/fname).exists()`. -/
def phase3 (mx : Str → Str → Bool) :
    List (Str × PTask) → List (Str × List Str) → Except TErr (List (Str × List Str))
  | [], deps => .ok deps
  | (src, t) :: rest, deps =>
    if t.includes = [] then phase3 mx rest deps
    else
      match pruneTask mx t.includes ((alLookup src deps).getD []) with
      | .error e => .error e
      | .ok nd => phase3 mx rest (alInsert src nd deps)

/-- Lines 189-191 of `get_tree`: the first used module defined by no
source, if any (the Python code iterates a set; which undefined module is
reported first is arbitrary there, a fixed order here). -/
def firstUndef (modDefs : List (Str × Str)) (deps : List (Str × List Str)) : Option Str :=
  deps.findSome? (fun p => p.2.find? (fun m => (alLookup m modDefs).isNone))

/-- Lines 192-195 of `get_tree`: reverse index from modules to the sources
that use them (`defaultdict(list)` in insertion order). -/
def buildUses : List (Str × List Str) → List (Str × List Str) → List (Str × List Str)
  | [], mu => mu
  | (src, ms) :: rest, mu =>
    buildUses rest
      (ms.foldl (fun mu m => alInsert m ((alLookup m mu).getD [] ++ [src]) mu) mu)

/-- `get_tree` (fcompile.py lines 159-206). -/
def get_tree (sha1 : Str → Str) (reprT : List Str → Str)
    (tasks : List (Str × PTask)) (mx : Str → Str → Bool) : Except TErr GTree :=
  match phase1 sha1 reprT tasks ⟨[], [], [], [], []⟩ with
  | .error e => .error e
  | .ok p =>
    let deps2 := phase2 p.mod_defs p.src_deps
    match phase3 mx tasks deps2 with
    | .error e => .error e
    | .ok deps =>
      match firstUndef p.mod_defs deps with
      | some m => .error (.notDefined m)
      | none =>
        let mu := buildUses deps []
        let pchildren : Str → List Str := fun s =>
          ((alLookup s p.src_mods).getD []).flatMap (fun m => (alLookup m mu).getD [])
        let achildren : Str → List Str := fun s =>
          (((alLookup s deps).getD []).map (fun m => (alLookup m p.mod_defs).getD [])).dedup
        .ok
          { src_mods := p.src_mods
            mod_uses := mu
            hashes := p.hashes
            line_nums := p.line_nums
            priority := getPriorityF pchildren (tasks.length + 1)
            ancestors := getAncestorsF achildren (tasks.length + 1) }

/-- Projection used to state facts about the error case of `get_tree`
(decidable, unlike equality of whole trees). -/
def errOf (r : Except TErr GTree) : Option TErr :=
  match r with
  | .error e => some e
  | .ok _ => none

/-! ### The cache store (fcompile.py lines 319-323, 350-351)

`json.load` is an external primitive; its possible outcomes on the cache
file are a missing file (`FileNotFoundError`), content that fails to parse
(`ValueError`), or a parsed JSON document. -/

/-- A parsed JSON document. -/
inductive PyJson : Type where
  | jnull : PyJson
  | jbool (b : Bool) : PyJson
  | jnum (n : Int) : PyJson
  | jstr (s : Str) : PyJson
  | jarr (l : List PyJson) : PyJson
  | jobj (l : List (Str × PyJson)) : PyJson

/-- What opening and `json.load`-ing the cache file can yield. -/
inductive CacheContent : Type where
  | missing : CacheContent
  | invalid : CacheContent
  | parsed (j : PyJson) : CacheContent

/-- Errors of `json.load(f)['hashes']` that the `except (ValueError,
FileNotFoundError)` clause does not catch. -/
inductive LoadErr : Type where
  | keyError : LoadErr
  | typeError : LoadErr
deriving DecidableEq

/-- The cache-load step of `build` (lines 319-323):
`json.load(f)['hashes']` guarded by `except (ValueError,
FileNotFoundError): hashes = {}`.  Subscripting a non-object raises
`TypeError`; a missing `'hashes'` key raises `KeyError`; neither is
caught. -/
def loadCache (c : CacheContent) : Except LoadErr PyJson :=
  match c with
  | .missing => .ok (.jobj [])
  | .invalid => .ok (.jobj [])
  | .parsed j =>
    match j with
    | .jobj kvs =>
      match alLookup (("hashes").toList) kvs with
      | some v => .ok v
      | none => .error .keyError
    | _ => .error .typeError

/-! ### The scheduler (`scheduler`, fcompile.py lines 243-296)

The scheduler reads the task tree only through total maps, so the tree
enters the model as a structure of functions.  The priority queue is
modelled as the list of items pushed; workers and the event loop are the
environment: each loop iteration consumes one completion event `(src,
retcode, clock)` together with the `.mod`-file hash oracle `mh` describing
the filesystem at that instant. -/

/-- The fields of the `TaskTree` as the scheduler reads them. -/
structure STree where
  src_mods : Str → List Str
  mod_uses : Str → List Str
  line_nums : Str → Nat
  priority : Str → Int
  ancestors : Str → List Str
  hashes : Str → Str

/-- What the scheduler reads from a `Task`: the argument tuple and
`str(task.source)`. -/
structure TaskI where
  args : List Str
  source : Str

/-- The scheduler's mutable state: the `waiting` and `scheduled` sets, the
live `hashes` dict, the items pushed to the priority queue so far, and the
progress counters. -/
structure SchedState where
  waiting : List Str
  scheduled : List Str
  hashes : List (Str × Str)
  queue : List (Int × Str × List Str)
  n_lines : Nat
  n_all_lines : Nat
deriving DecidableEq

/-- One candidate of the dispatch loop (lines 257-266): if no ancestor of
`src` is in the `blocking` snapshot, pop `hashes[src]`, push
`(-priority[src], src, args + (source,))`, and move `src` from `waiting`
to `scheduled`. -/
def dStep (tree : STree) (tasks : Str → TaskI) (blocking : List Str)
    (acc : SchedState) (src : Str) : SchedState :=
  if ∀ a ∈ tree.ancestors src, a ∉ blocking then
    { waiting := acc.waiting.erase src
      scheduled := acc.scheduled ++ [src]
      hashes := alErase src acc.hashes
      queue := acc.queue ++ [(-(tree.priority src), src, (tasks src).args ++ [(tasks src).source])]
      n_lines := acc.n_lines
      n_all_lines := acc.n_all_lines }
  else acc

/-- The dispatch pass at the top of each scheduler iteration (lines
255-266): `blocking = waiting | scheduled` is snapshotted, then
`for src in list(waiting)` tries to dispatch every waiting source. -/
def dispatchPass (tree : STree) (tasks : Str → TaskI) (st : SchedState) : SchedState :=
  st.waiting.foldl (dStep tree tasks (st.waiting ++ st.scheduled)) st

/-- The item the dispatch loop pushes onto the priority queue for `src`. -/
def qItem (tree : STree) (tasks : Str → TaskI) (src : Str) : Int × Str × List Str :=
  (-(tree.priority src), src, (tasks src).args ++ [(tasks src).source])

/-- Lines 293-296, one consumer `d` of a changed module: pop `hashes[d]`,
and if `d` is not waiting, grow `n_all_lines` and add it.  (The `assert d
not in scheduled` on line 292 is checked by the caller.) -/
def consumerStep (tree : STree) (st : SchedState) (d : Str) : SchedState :=
  { st with
    hashes := alErase d st.hashes
    n_all_lines := if d ∈ st.waiting then st.n_all_lines else st.n_all_lines + tree.line_nums d
    waiting := if d ∈ st.waiting then st.waiting else st.waiting ++ [d] }

/-- The `for src in tree.mod_uses[mod]` loop (lines 291-296).  A failure
of the `assert src not in scheduled` is `.error` carrying the state at the
raise (the live `hashes` dict the `finally` clause would flush). -/
def propLoop (tree : STree) : SchedState → List Str → Except SchedState SchedState
  | st, [] => .ok st
  | st, d :: ds =>
    if d ∈ st.scheduled then .error st
    else propLoop tree (consumerStep tree st d) ds

/-- Lines 286-296 for one module `m` of the just-completed source: rehash
`<m>.mod`; if the stored hash equals it, do nothing, otherwise store the
new hash and walk the consumers. -/
def propagateMod (tree : STree) (mh : Str → Str) (st : SchedState) (m : Str) :
    Except SchedState SchedState :=
  let modfile := m ++ (".mod").toList
  let h := mh modfile
  if alLookup modfile st.hashes = some h then .ok st
  else propLoop tree { st with hashes := alInsert modfile h st.hashes } (tree.mod_uses m)

/-- The `for mod in tree.src_mods[src]` loop of the completion handler. -/
def modsLoop (tree : STree) (mh : Str → Str) :
    SchedState → List Str → Except SchedState SchedState
  | st, [] => .ok st
  | st, m :: ms =>
    match propagateMod tree mh st m with
    | .error e => .error e
    | .ok st2 => modsLoop tree mh st2 ms

/-- Handling one successful completion (lines 281-296): commit
`hashes[src] = tree.hashes[src]`, grow `n_lines`, remove `src` from
`scheduled`, then propagate interface changes of its modules. -/
def completeSrc (tree : STree) (mh : Str → Str) (st : SchedState) (src : Str) :
    Except SchedState SchedState :=
  let st1 : SchedState :=
    { st with
      hashes := alInsert src (tree.hashes src) st.hashes
      n_lines := st.n_lines + tree.line_nums src
      scheduled := st.scheduled.erase src }
  modsLoop tree mh st1 (tree.src_mods src)

/-- The scheduler's state at entry (lines 250-254): `waiting` is the
changed set, `n_all_lines` its total line count, `hashes` the loaded
prior-run map. -/
def initState (tree : STree) (prior : List (Str × Str)) (changed : List Str) : SchedState :=
  { waiting := changed
    scheduled := []
    hashes := prior
    queue := []
    n_lines := 0
    n_all_lines := (changed.map tree.line_nums).sum }

/-- One full successful loop iteration: dispatch, then handle one
completion event for an in-flight source (result events only arrive for
dispatched tasks) under some filesystem oracle `mh`. -/
def Step (tree : STree) (tasks : Str → TaskI) (st st' : SchedState) : Prop :=
  ∃ src mh, src ∈ (dispatchPass tree tasks st).scheduled ∧
    completeSrc tree mh (dispatchPass tree tasks st) src = .ok st'

/-- States the scheduler loop can reach from its initial state. -/
def Reachable (tree : STree) (tasks : Str → TaskI) (init st : SchedState) : Prop :=
  Relation.ReflTransGen (Step tree tasks) init st

/-! ### Running the loop on a trace, and `build` (fcompile.py lines 312-353) -/

/-- One completion event `(src, retcode, clock)` from the result queue,
together with the `.mod` hash oracle at that instant (the `clock` value
only feeds the debug table and is dropped). -/
structure Ev where
  src : Str
  retcode : Int
  mh : Str → Str

/-- How a run of the scheduler loop ends, with the live `hashes` dict at
that point (what the `finally` clause of `build` flushes).  `pending`
means the loop is blocked on an empty result queue and never exits. -/
inductive RunOut : Type where
  | success (hs : List (Str × Str)) : RunOut
  | compErr (src : Str) (hs : List (Str × Str)) : RunOut
  | assertFail (hs : List (Str × Str)) : RunOut
  | pending (st : SchedState) : RunOut
deriving DecidableEq

/-- The scheduler loop (lines 255-296) driven by a finite trace of
completion events: dispatch; break when `blocking` was empty; otherwise
consume one event, raising `CompilationError` on a nonzero exit code. -/
def runTrace (tree : STree) (tasks : Str → TaskI) :
    List Ev → SchedState → RunOut
  | [], st =>
    if st.waiting = [] ∧ st.scheduled = [] then .success st.hashes
    else .pending (dispatchPass tree tasks st)
  | ev :: evs, st =>
    if st.waiting = [] ∧ st.scheduled = [] then .success st.hashes
    else
      let st1 := dispatchPass tree tasks st
      if ev.retcode = 0 then
        match completeSrc tree ev.mh st1 ev.src with
        | .error e => .assertFail e.hashes
        | .ok st2 => runTrace tree tasks evs st2
      else .compErr ev.src st1.hashes

/-- A trace is valid when every consumed event reports a source that is
actually in flight (the result queue only ever holds dispatched tasks). -/
def ValidTrace (tree : STree) (tasks : Str → TaskI) :
    List Ev → SchedState → Prop
  | [], _ => True
  | ev :: evs, st =>
    (st.waiting = [] ∧ st.scheduled = []) ∨
      (ev.src ∈ (dispatchPass tree tasks st).scheduled ∧
        ∀ st2, completeSrc tree ev.mh (dispatchPass tree tasks st) ev.src = .ok st2 →
          ValidTrace tree tasks evs st2)

/-- The scheduler-facing view of a `GTree` of finite maps. -/
def strTreeOf (g : GTree) : STree :=
  { src_mods := fun s => (alLookup s g.src_mods).getD []
    mod_uses := fun m => (alLookup m g.mod_uses).getD []
    line_nums := fun s => (alLookup s g.line_nums).getD 0
    priority := fun s => (g.priority s : Int)
    ancestors := g.ancestors
    hashes := fun s => (alLookup s g.hashes).getD [] }

/-- The scheduler-facing view of the task manifest. -/
def taskFnOf (tasks : List (Str × PTask)) : Str → TaskI :=
  fun s =>
    match alLookup s tasks with
    | some t => { args := t.args, source := t.source }
    | none => { args := [], source := [] }

/-- The JSON value loaded from the cache, as the string-to-string map
`build` expects; `none` when the value is not an object of strings (such a
cache makes the Python run fail later, outside the scope of the claims). -/
def asStrMap (j : PyJson) : Option (List (Str × Str)) :=
  match j with
  | .jobj kvs =>
    kvs.foldr
      (fun kv acc =>
        match kv.2, acc with
        | .jstr s, some l => some ((kv.1, s) :: l)
        | _, _ => none)
      (some [])
  | _ => none

/-- Line 324 of `build`: the changed files, in task order. -/
def changedOf (g : GTree) (prior : List (Str × Str)) (keys : List Str) : List Str :=
  keys.filter (fun s => ¬ alLookup s g.hashes = alLookup s prior)

/-- How an invocation of `build` ends.  Only `.ran` reaches the
`try/finally` that rewrites the cache; `.treeError`, `.cacheLoadError`,
`.badCache` and `.noWork` leave `build` before it. -/
inductive BuildOut : Type where
  | treeError (e : TErr) : BuildOut
  | cacheLoadError (e : LoadErr) : BuildOut
  | badCache : BuildOut
  | noWork : BuildOut
  | ran (out : RunOut) : BuildOut
deriving DecidableEq

/-- The cache document written on exit, when the invocation exits through
the `finally` clause (`pending` runs never exit). -/
def cacheWritten (b : BuildOut) : Option (List (Str × Str)) :=
  match b with
  | .ran (.success hs) => some hs
  | .ran (.compErr _ hs) => some hs
  | .ran (.assertFail hs) => some hs
  | _ => none

/-- `build` (fcompile.py lines 312-353): build the tree, load the cache,
compute the changed files, return early when there is nothing to do or on
a dry run, otherwise run the scheduler loop on the event trace. -/
def buildModel (sha1 : Str → Str) (reprT : List Str → Str)
    (tasks : List (Str × PTask)) (mx : Str → Str → Bool)
    (cache : CacheContent) (dry : Bool) (trace : List Ev) : BuildOut :=
  match get_tree sha1 reprT tasks mx with
  | .error e => .treeError e
  | .ok g =>
    match loadCache cache with
    | .error e => .cacheLoadError e
    | .ok v =>
      match asStrMap v with
      | none => .badCache
      | some prior =>
        let changed := changedOf g prior (tasks.map Prod.fst)
        if changed = [] ∨ dry then .noWork
        else
          let T := strTreeOf g
          .ran (runTrace T (taskFnOf tasks) trace (initState T prior changed))

/-! ### Invariants and well-formedness -/

/-- The readiness gate of the dispatch loop: no ancestor in `blocking`. -/
abbrev gateP (tree : STree) (blocking : List Str) (src : Str) : Prop :=
  ∀ a ∈ tree.ancestors src, a ∉ blocking

/-- `waiting` and `scheduled` are sets: duplicate-free and disjoint. -/
def StWF (st : SchedState) : Prop :=
  st.waiting.Nodup ∧ st.scheduled.Nodup ∧ ∀ x ∈ st.scheduled, x ∉ st.waiting

/-- The scheduling invariant: a scheduled source has no ancestor that is
still waiting or scheduled. -/
def Inv (tree : STree) (st : SchedState) : Prop :=
  ∀ d ∈ st.scheduled, ∀ a ∈ tree.ancestors d, a ∉ st.waiting ∧ a ∉ st.scheduled

/-- What `get_tree` guarantees about the tree the scheduler reads:
ancestor sets are transitively closed, the definer of a used module is an
ancestor of each user, and the per-module consumer lists are
duplicate-free. -/
structure TreeWF (tree : STree) : Prop where
  anc_trans : ∀ d e, e ∈ tree.ancestors d → ∀ a ∈ tree.ancestors e, a ∈ tree.ancestors d
  uses_anc : ∀ c m d, m ∈ tree.src_mods c → d ∈ tree.mod_uses m → c ∈ tree.ancestors d

/-- Invariant for the cache-flush argument: set-ness, no scheduled source
has a live hash entry, and everything in play is a source name. -/
def InvH (SRC : Str → Prop) (st : SchedState) : Prop :=
  StWF st ∧ (∀ s ∈ st.scheduled, alLookup s st.hashes = none) ∧
    ∀ s, s ∈ st.waiting ∨ s ∈ st.scheduled → SRC s

/-- Names that can ever enter `waiting`/`scheduled`: manifest keys and
members of consumer lists. -/
def SRCset (tasks : List (Str × PTask)) (T : STree) (s : Str) : Prop :=
  s ∈ tasks.map Prod.fst ∨ ∃ m, s ∈ T.mod_uses m

/-! ### Concrete instances used by witnesses and counterexamples -/

/-- The source name `a`. -/
def caS : Str := ("a").toList

/-- The source name `b`. -/
def cbS : Str := ("b").toList

/-- The module name `m`. -/
def mS : Str := ("m").toList

/-- A two-node priority graph: `b` uses the module of `a`, so `b` is the
one child of `a`. -/
def cg : Str → List Str := fun s => if s = caS then [cbS] else []

/-- A rank function witnessing that `cg` is acyclic. -/
def crk : Str → Nat := fun s => if s = caS then 1 else 0

/-- The task tree of the two-source example: `a` defines module `m`,
`b` uses it. -/
def wtree : STree :=
  { src_mods := fun s => if s = caS then [mS] else []
    mod_uses := fun m => if m = mS then [cbS] else []
    line_nums := fun s => if s = caS then 2 else 3
    priority := fun s => if s = caS then 2 else 1
    ancestors := fun s => if s = cbS then [caS] else []
    hashes := fun s => ("H").toList ++ s }

/-- Tasks of the two-source example. -/
def wtasks : Str → TaskI :=
  fun s => { args := [("gfortran").toList], source := s ++ (".f90").toList }

/-- Initial scheduler state of the two-source example: both changed. -/
def winit : SchedState := initState wtree [] [caS, cbS]

/-- A mid-run state of the two-source example: `b` waits, nothing
scheduled, the stored `m.mod` hash is stale. -/
def wstC1 : SchedState :=
  { waiting := [cbS]
    scheduled := []
    hashes := [(mS ++ (".mod").toList, ("old").toList)]
    queue := []
    n_lines := 2
    n_all_lines := 2 }

/-- A `.mod` hash oracle for concrete runs: every interface file now
hashes to `new`. -/
def wmh : Str → Str := fun _ => ("new").toList

/-- The identity stand-in for SHA-1 in concrete runs (injective). -/
def idSha : Str → Str := fun s => s

/-- A concrete stand-in for `repr` of the argument tuple in concrete
runs. -/
def joinRepr : List Str → Str := fun l => l.foldr (fun a b => a ++ b) []

/-- A filesystem with no `.mod` files anywhere. -/
def mx0 : Str → Str → Bool := fun _ _ => false

/-- The task of the one-task manifest used by the `build` witnesses. -/
def t4 : PTask :=
  { source := ("a.f90").toList
    content := ("x = 1\n").toList
    args := [("g").toList]
    includes := [] }

/-- The one-task manifest used by the `build` witnesses: no modules. -/
def tasks4 : List (Str × PTask) := [(caS, t4)]

/-- The prior-run hash map recorded in `cache4`: the hash of the same file
bytes under the argument tuple `("h",)`. -/
def c4prior : List (Str × Str) := [(caS, ("h").toList ++ ("x = 1\n").toList)]

/-- A prior-run cache for `tasks4` recording the hash the same file had
under the argument tuple `("h",)`. -/
def cache4 : CacheContent :=
  .parsed (.jobj [(("hashes").toList, .jobj [(caS, .jstr (("h").toList ++ ("x = 1\n").toList))])])

/-- Fallback tree for projections out of `Except`. -/
def gtree0 : GTree := ⟨[], [], [], [], fun _ => 0, fun _ => []⟩

/-- The tree `get_tree` builds for `tasks4`. -/
def g4 : GTree :=
  match get_tree idSha joinRepr tasks4 mx0 with
  | .ok g => g
  | .error _ => gtree0

/-- The manifest of the C5 failing input: one file that uses `x` and `y`,
with two include directories. -/
def tasks5 : List (Str × PTask) :=
  [(caS,
    { source := ("a.f90").toList
      content := ("use x\nuse y\n").toList
      args := []
      includes := [("d1").toList, ("d2").toList] })]

/-- A filesystem in which `x.mod` exists in both include directories and
nothing else exists. -/
def mx5 : Str → Str → Bool := fun _ f => f = ("x").toList ++ (".mod").toList

/-- The C8 counterexample run: a dry invocation with one changed file. -/
def dryOut : BuildOut := buildModel idSha joinRepr tasks4 mx0 .missing true []

/-- Event trace of the C8 witness: the only compilation fails with exit
code 1. -/
def trace8 : List Ev := [{ src := caS, retcode := 1, mh := fun _ => [] }]

/-! ## Association-list lemmas -/

theorem alLookup_filter {α : Type} (q : Str → Bool) (l : List (Str × α)) (k : Str) :
    alLookup k (l.filter (fun p => q p.1)) = if q k then alLookup k l else none := by
  induction l with
  | nil => simp [alLookup]
  | cons p l ih =>
    simp only [List.filter_cons]
    by_cases hq : q p.1 = true
    · rw [if_pos hq]
      by_cases hk : p.1 = k
      · subst hk
        simp [alLookup, hq]
      · simp [alLookup, hk, ih]
    · rw [if_neg hq]
      rw [ih]
      by_cases hk : p.1 = k
      · subst hk
        simp [hq]
      · simp [alLookup, hk]

theorem alLookup_insert {α : Type} (k k' : Str) (v : α) (l : List (Str × α)) :
    alLookup k (alInsert k' v l) = if k' = k then some v else alLookup k l := by
  induction l with
  | nil => simp [alInsert, alLookup]
  | cons p l ih =>
    by_cases h : p.1 = k'
    · simp only [alInsert, h, if_true]
      by_cases hk : k' = k
      · simp [alLookup, hk]
      · simp [alLookup, hk, h]
    · simp only [alInsert, h, if_false]
      by_cases hk : p.1 = k
      · have : ¬ k' = k := by intro e; exact h (by rw [hk, e])
        simp [alLookup, hk, this]
      · simp [alLookup, hk, ih]

theorem alLookup_erase {α : Type} (k k' : Str) (l : List (Str × α)) :
    alLookup k (alErase k' l) = if k = k' then none else alLookup k l := by
  unfold alErase
  rw [show (fun p : Str × α => decide ¬ p.1 = k') = (fun p : Str × α => decide ¬ p.1 = k') from rfl]
  rw [alLookup_filter (fun s => decide ¬ s = k') l k]
  by_cases h : k = k' <;> simp [h]

/-! ## C10: the parser is not total on keyword lines without identifiers -/

/-- Claim C10: there are input lines whose first space-delimited word is
exactly `module` or `use` but which contain no following identifier, on
which `parse_modules` raises instead of returning: the line `module`
(as a final line without a newline) and the line `use ,`. -/
theorem c10_parser_exception :
    parse_modules [("module").toList] = none ∧
    lowerStr ((("module").toList).takeWhile (fun ch => ¬ ch = ' ')) = ("module").toList ∧
    parse_modules [("use ,\n").toList] = none ∧
    lowerStr ((("use ,\n").toList).takeWhile (fun ch => ¬ ch = ' ')) = ("use").toList := by
  decide

/-! ## C6: the per-line scan splits on a space, not on whitespace -/

/-- Counterexample to claim C6 as stated: on the line `use\tm` the first
whitespace-delimited word is `use`, so the claim's parser records the use
of `m`; the code splits on `' '` only, so it records nothing. -/
theorem c6_counterexample :
    parse_modules [("use\tm\n").toList] = some (1, [], []) ∧
    parseModulesClaim [("use\tm\n").toList] = some (1, [], [("m").toList]) ∧
    ¬ parse_modules [("use\tm\n").toList] = parseModulesClaim [("use\tm\n").toList] :=
  ⟨by decide, by decide, by decide⟩

/-! ## C7: loading the cache -/

/-- Counterexample to claim C7 as stated: the cache content `{}` is a
malformed cache document, yet loading raises an uncaught `KeyError`
rather than yielding the empty map. -/
theorem c7_counterexample :
    loadCache (.parsed (.jobj [])) = .error .keyError ∧
    ¬ loadCache (.parsed (.jobj [])) = .ok (.jobj []) := by
  refine ⟨rfl, fun h => ?_⟩
  exact Except.noConfusion h

/-- Claim C7 as amended: a missing cache file or content that fails JSON
parsing loads as the empty map without an error; but a parsed document
that is not an object raises `TypeError`, and a parsed object without the
`hashes` key raises `KeyError`. -/
theorem c7_cache_load (kvs : List (Str × PyJson)) (j : PyJson) (v : PyJson) :
    loadCache .missing = .ok (.jobj []) ∧
    loadCache .invalid = .ok (.jobj []) ∧
    (alLookup (("hashes").toList) kvs = some v →
      loadCache (.parsed (.jobj kvs)) = .ok v) ∧
    (alLookup (("hashes").toList) kvs = none →
      loadCache (.parsed (.jobj kvs)) = .error .keyError) ∧
    ((∀ l, ¬ j = .jobj l) → loadCache (.parsed j) = .error .typeError) := by
  refine ⟨rfl, rfl, fun h => ?_, fun h => ?_, fun h => ?_⟩
  · show (match alLookup (("hashes").toList) kvs with
      | some v => Except.ok v
      | none => Except.error LoadErr.keyError) = Except.ok v
    rw [h]
  · show (match alLookup (("hashes").toList) kvs with
      | some v => Except.ok v
      | none => Except.error LoadErr.keyError) = Except.error LoadErr.keyError
    rw [h]
  · cases j with
    | jobj l => exact absurd rfl (h l)
    | jnull => rfl
    | jbool b => rfl
    | jnum n => rfl
    | jstr s => rfl
    | jarr l => rfl

theorem c7_cache_load_witness :
    alLookup (("hashes").toList) ([] : List (Str × PyJson)) = none ∧
    (∀ l, ¬ PyJson.jnull = .jobj l) ∧
    loadCache (.parsed (.jobj [])) = .error .keyError ∧
    loadCache (.parsed .jnull) = .error .typeError :=
  ⟨rfl, fun _ h => PyJson.noConfusion h,
    (c7_cache_load [] .jnull .jnull).2.2.2.1 rfl,
    (c7_cache_load [] .jnull .jnull).2.2.2.2 (fun _ h => PyJson.noConfusion h)⟩

/-! ## C5: the include-pruning loop crashes on doubly-satisfied modules -/

/-- Claim C5 and the failing input: in `tasks5` the module `y` is used,
defined by no source, and satisfied by no include directory, so the claim
requires `ModuleNotDefined(y)`; but because `x.mod` exists in both
include directories, the snapshotting `product` loop calls `set.remove`
twice for `x` and `get_tree` dies with an uncaught `KeyError` first. -/
theorem c5_keyerror_eval :
    errOf (get_tree idSha joinRepr tasks5 mx5) = some .keyError ∧
    parse_modules (pySplitLines (("use x\nuse y\n").toList)) =
      some (2, [], [("x").toList, ("y").toList]) ∧
    mx5 (("d1").toList) (("x").toList ++ (".mod").toList) = true ∧
    mx5 (("d2").toList) (("x").toList ++ (".mod").toList) = true ∧
    mx5 (("d1").toList) (("y").toList ++ (".mod").toList) = false ∧
    mx5 (("d2").toList) (("y").toList ++ (".mod").toList) = false := by
  decide

/-! ## C3: priorities on acyclic graphs -/

theorem getPriorityF_stable (children : Str → List Str) (rk : Str → Nat)
    (h : RankDec children rk) :
    ∀ (n : Nat) (s : Str), rk s ≤ n → ∀ f₁ f₂, rk s < f₁ → rk s < f₂ →
      getPriorityF children f₁ s = getPriorityF children f₂ s := by
  intro n
  induction n with
  | zero =>
    intro s hs f₁ f₂ h₁ h₂
    have hnil : children s = [] := by
      cases hc : children s with
      | nil => rfl
      | cons c cs =>
        have := h s c (by rw [hc]; exact List.mem_cons_self c cs)
        omega
    cases f₁ with
    | zero => omega
    | succ a =>
      cases f₂ with
      | zero => omega
      | succ b => simp [getPriorityF, hnil]
  | succ n ih =>
    intro s hs f₁ f₂ h₁ h₂
    cases f₁ with
    | zero => omega
    | succ a =>
      cases f₂ with
      | zero => omega
      | succ b =>
        simp only [getPriorityF]
        congr 1
        apply congrArg
        apply List.map_congr_left
        intro c hc
        have hlt := h s c hc
        exact ih c (by omega) a b (by omega) (by omega)

theorem priorityOf_child (children : Str → List Str) (rk : Str → Nat)
    (h : RankDec children rk) (d s : Str) (hc : s ∈ children d) :
    priorityOf children rk s < priorityOf children rk d := by
  have hd : priorityOf children rk d =
      1 + ((children d).map (getPriorityF children (rk d))).sum := rfl
  have hmem : getPriorityF children (rk d) s ∈
      (children d).map (getPriorityF children (rk d)) := List.mem_map_of_mem _ hc
  have hle : getPriorityF children (rk d) s ≤
      ((children d).map (getPriorityF children (rk d))).sum := List.le_sum_of_mem hmem
  have hst : getPriorityF children (rk d) s = priorityOf children rk s := by
    have := h d s hc
    exact getPriorityF_stable children rk h (rk s) s le_rfl (rk d) (rk s + 1) this (Nat.lt_succ_self _)
  omega

/-- Claim C3 as amended: on an acyclic graph (witnessed by a rank
function) every priority is at least 1, and the priority of a strict
ancestor `d` strictly exceeds the priority of each source `s` reachable
from it through module uses (the claim as stated has the inequality the
other way around). -/
theorem c3_priority_order (children : Str → List Str) (rk : Str → Nat)
    (h : RankDec children rk) :
    (∀ s, 1 ≤ priorityOf children rk s) ∧
    ∀ d s, StrictAnc children d s →
      priorityOf children rk s < priorityOf children rk d := by
  constructor
  · intro s
    show 1 ≤ getPriorityF children (rk s + 1) s
    simp [getPriorityF]
  · intro d s hanc
    induction hanc with
    | single hc => exact priorityOf_child children rk h _ _ hc
    | tail hab hbc ih =>
      exact lt_trans (priorityOf_child children rk h _ _ hbc) ih

/-- Counterexample to claim C3 as stated: in the two-source example `a`
is a strict ancestor of `b` through module uses, yet
`priority(b) = 1 < 2 = priority(a)`, not the other way around. -/
theorem c3_counterexample :
    StrictAnc cg caS cbS ∧ ¬ priorityOf cg crk caS < priorityOf cg crk cbS :=
  ⟨Relation.TransGen.single (by decide), by decide⟩

theorem c3_priority_order_witness :
    RankDec cg crk ∧ 1 ≤ priorityOf cg crk caS ∧
      priorityOf cg crk cbS < priorityOf cg crk caS := by
  have hr : RankDec cg crk := by
    intro s c hc
    by_cases hs : s = caS
    · subst hs
      rw [show cg caS = [cbS] from rfl, List.mem_singleton] at hc
      subst hc
      decide
    · simp only [cg, if_neg hs] at hc
      exact absurd hc (List.not_mem_nil c)
  exact ⟨hr, (c3_priority_order cg crk hr).1 caS,
    (c3_priority_order cg crk hr).2 caS cbS (Relation.TransGen.single (by decide))⟩

/-! ## The dispatch pass, characterised -/

theorem dispatchGo (tree : STree) (tasks : Str → TaskI) (blocking : List Str) :
    ∀ (l : List Str) (acc : SchedState), l.Nodup → acc.waiting.Nodup →
      (∀ s ∈ l, s ∈ acc.waiting) →
      l.foldl (dStep tree tasks blocking) acc =
        { waiting := acc.waiting.filter (fun s => decide ¬(s ∈ l ∧ gateP tree blocking s))
          scheduled := acc.scheduled ++ l.filter (fun s => decide (gateP tree blocking s))
          hashes := acc.hashes.filter (fun p => decide ¬(p.1 ∈ l ∧ gateP tree blocking p.1))
          queue := acc.queue ++
            (l.filter (fun s => decide (gateP tree blocking s))).map (qItem tree tasks)
          n_lines := acc.n_lines
          n_all_lines := acc.n_all_lines } := by
  intro l
  induction l with
  | nil =>
    intro acc _ _ _
    have h1 : acc.waiting.filter
        (fun s => decide ¬(s ∈ ([] : List Str) ∧ gateP tree blocking s)) = acc.waiting := by
      apply List.filter_eq_self.mpr
      intro a _
      simp
    have h2 : acc.hashes.filter
        (fun p => decide ¬(p.1 ∈ ([] : List Str) ∧ gateP tree blocking p.1)) = acc.hashes := by
      apply List.filter_eq_self.mpr
      intro a _
      simp
    simp only [List.foldl_nil, List.filter_nil, List.map_nil, List.append_nil, h1, h2]
  | cons s l ih =>
    intro acc hnd hwn hsub
    obtain ⟨hs_notin, hlnd⟩ := List.nodup_cons.mp hnd
    have hsacc : s ∈ acc.waiting := hsub s (List.mem_cons_self s l)
    by_cases hg : gateP tree blocking s
    · have hstep : dStep tree tasks blocking acc s =
          { waiting := acc.waiting.erase s
            scheduled := acc.scheduled ++ [s]
            hashes := alErase s acc.hashes
            queue := acc.queue ++ [qItem tree tasks s]
            n_lines := acc.n_lines
            n_all_lines := acc.n_all_lines } := by
        unfold dStep qItem
        rw [if_pos hg]
      have hsub' : ∀ t ∈ l, t ∈ acc.waiting.erase s := by
        intro t ht
        have hts : t ≠ s := by
          intro he
          rw [he] at ht
          exact hs_notin ht
        exact (List.mem_erase_of_ne hts).mpr (hsub t (List.mem_cons_of_mem s ht))
      rw [List.foldl_cons, hstep, ih _ hlnd (hwn.erase s) hsub']
      have hW : (acc.waiting.erase s).filter
            (fun x => decide ¬(x ∈ l ∧ gateP tree blocking x)) =
          acc.waiting.filter (fun x => decide ¬(x ∈ s :: l ∧ gateP tree blocking x)) := by
        rw [hwn.erase_eq_filter s, List.filter_filter]
        apply List.filter_congr
        intro x _
        rw [Bool.eq_iff_iff]
        simp only [Bool.and_eq_true, decide_eq_true_eq, bne_iff_ne, ne_eq, List.mem_cons]
        constructor
        · rintro ⟨hnl, hns⟩ ⟨hor, hgx⟩
          rcases hor with h | h
          · exact hns h
          · exact hnl ⟨h, hgx⟩
        · intro hn
          constructor
          · rintro ⟨hl, hgx⟩
            exact hn ⟨Or.inr hl, hgx⟩
          · intro he
            refine hn ⟨Or.inl he, ?_⟩
            rw [he]
            exact hg
      have hH : (alErase s acc.hashes).filter
            (fun p => decide ¬(p.1 ∈ l ∧ gateP tree blocking p.1)) =
          acc.hashes.filter (fun p => decide ¬(p.1 ∈ s :: l ∧ gateP tree blocking p.1)) := by
        unfold alErase
        rw [List.filter_filter]
        apply List.filter_congr
        intro p _
        rw [Bool.eq_iff_iff]
        simp only [Bool.and_eq_true, decide_eq_true_eq, List.mem_cons]
        constructor
        · rintro ⟨hnl, hns⟩ ⟨hor, hgx⟩
          rcases hor with h | h
          · exact hns h
          · exact hnl ⟨h, hgx⟩
        · intro hn
          constructor
          · rintro ⟨hl, hgx⟩
            exact hn ⟨Or.inr hl, hgx⟩
          · intro he
            refine hn ⟨Or.inl he, ?_⟩
            rw [he]
            exact hg
      have hS : (acc.scheduled ++ [s]) ++
            l.filter (fun x => decide (gateP tree blocking x)) =
          acc.scheduled ++ (s :: l).filter (fun x => decide (gateP tree blocking x)) := by
        rw [List.append_assoc]
        congr 1
        rw [List.filter_cons, if_pos (decide_eq_true hg)]
        rfl
      have hQ : (acc.queue ++ [qItem tree tasks s]) ++
            (l.filter (fun x => decide (gateP tree blocking x))).map (qItem tree tasks) =
          acc.queue ++
            ((s :: l).filter (fun x => decide (gateP tree blocking x))).map (qItem tree tasks) := by
        rw [List.append_assoc]
        congr 1
        rw [List.filter_cons, if_pos (decide_eq_true hg), List.map_cons]
        rfl
      rw [hW, hH, hS, hQ]
    · have hstep : dStep tree tasks blocking acc s = acc := by
        unfold dStep
        rw [if_neg hg]
      have hsub' : ∀ t ∈ l, t ∈ acc.waiting := by
        intro t ht
        exact hsub t (List.mem_cons_of_mem s ht)
      rw [List.foldl_cons, hstep, ih _ hlnd hwn hsub']
      have hmem : ∀ x : Str, (x ∈ l ∧ gateP tree blocking x) ↔
          (x ∈ s :: l ∧ gateP tree blocking x) := by
        intro x
        simp only [List.mem_cons]
        constructor
        · rintro ⟨hl, hgx⟩
          exact ⟨Or.inr hl, hgx⟩
        · rintro ⟨hor, hgx⟩
          rcases hor with he | hl
          · exfalso
            apply hg
            rw [← he]
            exact hgx
          · exact ⟨hl, hgx⟩
      have hW : acc.waiting.filter (fun x => decide ¬(x ∈ l ∧ gateP tree blocking x)) =
          acc.waiting.filter (fun x => decide ¬(x ∈ s :: l ∧ gateP tree blocking x)) := by
        apply List.filter_congr
        intro x _
        rw [Bool.eq_iff_iff]
        simp only [decide_eq_true_eq]
        rw [hmem x]
      have hH : acc.hashes.filter (fun p => decide ¬(p.1 ∈ l ∧ gateP tree blocking p.1)) =
          acc.hashes.filter (fun p => decide ¬(p.1 ∈ s :: l ∧ gateP tree blocking p.1)) := by
        apply List.filter_congr
        intro p _
        rw [Bool.eq_iff_iff]
        simp only [decide_eq_true_eq]
        rw [hmem p.1]
      have hF : (s :: l).filter (fun x => decide (gateP tree blocking x)) =
          l.filter (fun x => decide (gateP tree blocking x)) := by
        rw [List.filter_cons, if_neg]
        simp only [decide_eq_true_eq]
        exact hg
      rw [hW, hH, hF]

theorem dispatchPass_eq (tree : STree) (tasks : Str → TaskI) (st : SchedState)
    (hwn : st.waiting.Nodup) :
    dispatchPass tree tasks st =
      { waiting := st.waiting.filter
          (fun s => decide ¬(s ∈ st.waiting ∧ gateP tree (st.waiting ++ st.scheduled) s))
        scheduled := st.scheduled ++ st.waiting.filter
          (fun s => decide (gateP tree (st.waiting ++ st.scheduled) s))
        hashes := st.hashes.filter
          (fun p => decide ¬(p.1 ∈ st.waiting ∧ gateP tree (st.waiting ++ st.scheduled) p.1))
        queue := st.queue ++ (st.waiting.filter
          (fun s => decide (gateP tree (st.waiting ++ st.scheduled) s))).map (qItem tree tasks)
        n_lines := st.n_lines
        n_all_lines := st.n_all_lines } :=
  dispatchGo tree tasks _ st.waiting st hwn hwn (fun _ h => h)

theorem dp_mem_scheduled (tree : STree) (tasks : Str → TaskI) (st : SchedState)
    (hwn : st.waiting.Nodup) (x : Str) :
    x ∈ (dispatchPass tree tasks st).scheduled ↔
      x ∈ st.scheduled ∨ (x ∈ st.waiting ∧ gateP tree (st.waiting ++ st.scheduled) x) := by
  rw [dispatchPass_eq tree tasks st hwn]
  simp [List.mem_filter]

theorem dp_mem_waiting (tree : STree) (tasks : Str → TaskI) (st : SchedState)
    (hwn : st.waiting.Nodup) (x : Str) :
    x ∈ (dispatchPass tree tasks st).waiting ↔
      x ∈ st.waiting ∧ ¬ gateP tree (st.waiting ++ st.scheduled) x := by
  rw [dispatchPass_eq tree tasks st hwn]
  simp only [List.mem_filter, decide_eq_true_eq]
  constructor
  · rintro ⟨hx, hng⟩
    exact ⟨hx, fun hg => hng ⟨hx, hg⟩⟩
  · rintro ⟨hx, hng⟩
    exact ⟨hx, fun hc => hng hc.2⟩

theorem dp_lookup (tree : STree) (tasks : Str → TaskI) (st : SchedState)
    (hwn : st.waiting.Nodup) (k : Str) :
    alLookup k (dispatchPass tree tasks st).hashes =
      if k ∈ st.waiting ∧ gateP tree (st.waiting ++ st.scheduled) k then none
      else alLookup k st.hashes := by
  rw [dispatchPass_eq tree tasks st hwn]
  show alLookup k (st.hashes.filter (fun p => decide ¬(p.1 ∈ st.waiting ∧ _))) = _
  rw [alLookup_filter (fun s => decide ¬(s ∈ st.waiting ∧ gateP tree (st.waiting ++ st.scheduled) s)) st.hashes k]
  by_cases h : k ∈ st.waiting ∧ gateP tree (st.waiting ++ st.scheduled) k
  · rw [if_pos h, if_neg (by simp only [decide_eq_true_eq]; exact fun hn => hn h)]
  · rw [if_neg h, if_pos (decide_eq_true h)]

theorem dp_stwf (tree : STree) (tasks : Str → TaskI) (st : SchedState)
    (hw : StWF st) : StWF (dispatchPass tree tasks st) := by
  obtain ⟨hwn, hsn, hdisj⟩ := hw
  rw [dispatchPass_eq tree tasks st hwn]
  refine ⟨hwn.filter _, ?_, ?_⟩
  · refine hsn.append (hwn.filter _) ?_
    intro x hx hx'
    exact hdisj x hx (List.mem_of_mem_filter hx')
  · intro x hx hx'
    rcases List.mem_append.mp hx with hx1 | hx1
    · exact hdisj x hx1 (List.mem_of_mem_filter hx')
    · have h1 := List.mem_filter.mp hx1
      have h2 := List.mem_filter.mp hx'
      have := h2.2
      simp only [decide_eq_true_eq] at this
      exact this ⟨h2.1, by
        have := h1.2
        simpa using this⟩

theorem dp_union (tree : STree) (tasks : Str → TaskI) (st : SchedState)
    (hwn : st.waiting.Nodup) (x : Str) :
    (x ∈ (dispatchPass tree tasks st).waiting ∨ x ∈ (dispatchPass tree tasks st).scheduled) ↔
      (x ∈ st.waiting ∨ x ∈ st.scheduled) := by
  rw [dp_mem_waiting tree tasks st hwn, dp_mem_scheduled tree tasks st hwn]
  by_cases hg : gateP tree (st.waiting ++ st.scheduled) x
  · constructor
    · rintro (⟨h, hng⟩ | h | ⟨h, _⟩)
      · exact Or.inl h
      · exact Or.inr h
      · exact Or.inl h
    · rintro (h | h)
      · exact Or.inr (Or.inr ⟨h, hg⟩)
      · exact Or.inr (Or.inl h)
  · constructor
    · rintro (⟨h, _⟩ | h | ⟨h, _⟩)
      · exact Or.inl h
      · exact Or.inr h
      · exact Or.inl h
    · rintro (h | h)
      · exact Or.inl ⟨h, hg⟩
      · exact Or.inr (Or.inl h)

theorem dp_inv (tree : STree) (tasks : Str → TaskI) (st : SchedState)
    (hw : StWF st) (hi : Inv tree st) : Inv tree (dispatchPass tree tasks st) := by
  obtain ⟨hwn, _, hdisj⟩ := hw
  intro d hd a ha
  rw [dp_mem_scheduled tree tasks st hwn] at hd
  have hnw : a ∉ st.waiting ∧ a ∉ st.scheduled := by
    rcases hd with hd | ⟨hdw, hdg⟩
    · exact hi d hd a ha
    · have := hdg a ha
      constructor
      · intro hc
        exact this (List.mem_append.mpr (Or.inl hc))
      · intro hc
        exact this (List.mem_append.mpr (Or.inr hc))
  constructor
  · rw [dp_mem_waiting tree tasks st hwn]
    intro hc
    exact hnw.1 hc.1
  · rw [dp_mem_scheduled tree tasks st hwn]
    rintro (hc | ⟨hc, _⟩)
    · exact hnw.2 hc
    · exact hnw.1 hc

/-! ## Preservation lemmas for the completion handler -/

theorem propLoop_ok_pres (tree : STree) (P : SchedState → Prop) :
    ∀ (D : List Str),
      (∀ st d, d ∈ D → P st → d ∉ st.scheduled → P (consumerStep tree st d)) →
      ∀ st st2, P st → propLoop tree st D = .ok st2 → P st2 := by
  intro D
  induction D with
  | nil =>
    intro _ st st2 hP h
    unfold propLoop at h
    injection h with h
    rw [← h]
    exact hP
  | cons d D ih =>
    intro hstep st st2 hP h
    unfold propLoop at h
    by_cases hd : d ∈ st.scheduled
    · rw [if_pos hd] at h
      exact Except.noConfusion h
    · rw [if_neg hd] at h
      exact ih (fun st' d' hd' => hstep st' d' (List.mem_cons_of_mem d hd')) _ _
        (hstep st d (List.mem_cons_self d D) hP hd) h

theorem propagateMod_ok_pres (tree : STree) (mh : Str → Str) (P : SchedState → Prop) (m : Str)
    (hins : ∀ st, P st →
      P { st with hashes :=
            alInsert (m ++ (".mod").toList) (mh (m ++ (".mod").toList)) st.hashes })
    (hcons : ∀ st d, d ∈ tree.mod_uses m → P st → d ∉ st.scheduled →
      P (consumerStep tree st d)) :
    ∀ st st2, P st → propagateMod tree mh st m = .ok st2 → P st2 := by
  intro st st2 hP h
  simp only [propagateMod] at h
  split at h
  · injection h with h
    rw [← h]
    exact hP
  · exact propLoop_ok_pres tree P (tree.mod_uses m) hcons _ _ (hins st hP) h

theorem modsLoop_ok_pres (tree : STree) (mh : Str → Str) (P : SchedState → Prop) :
    ∀ (ms : List Str),
      (∀ st m st2, m ∈ ms → P st → propagateMod tree mh st m = .ok st2 → P st2) →
      ∀ st st2, P st → modsLoop tree mh st ms = .ok st2 → P st2 := by
  intro ms
  induction ms with
  | nil =>
    intro _ st st2 hP h
    unfold modsLoop at h
    injection h with h
    rw [← h]
    exact hP
  | cons m ms ih =>
    intro hstep st st2 hP h
    unfold modsLoop at h
    cases hpm : propagateMod tree mh st m with
    | error e =>
      rw [hpm] at h
      exact Except.noConfusion h
    | ok st1 =>
      rw [hpm] at h
      exact ih (fun st' m' st2' hm' => hstep st' m' st2' (List.mem_cons_of_mem m hm')) _ _
        (hstep st m st1 (List.mem_cons_self m ms) hP hpm) h

theorem consumerStep_stwf (tree : STree) (st : SchedState) (d : Str)
    (hw : StWF st) (hd : d ∉ st.scheduled) : StWF (consumerStep tree st d) := by
  obtain ⟨hwn, hsn, hdisj⟩ := hw
  by_cases hdw : d ∈ st.waiting
  · refine ⟨?_, hsn, ?_⟩
    · show (if d ∈ st.waiting then st.waiting else st.waiting ++ [d]).Nodup
      rw [if_pos hdw]
      exact hwn
    · intro x hx
      show x ∉ (if d ∈ st.waiting then st.waiting else st.waiting ++ [d])
      rw [if_pos hdw]
      exact hdisj x hx
  · refine ⟨?_, hsn, ?_⟩
    · show (if d ∈ st.waiting then st.waiting else st.waiting ++ [d]).Nodup
      rw [if_neg hdw]
      refine hwn.append (List.nodup_singleton d) ?_
      intro x hx hx'
      rw [List.mem_singleton] at hx'
      rw [hx'] at hx
      exact hdw hx
    · intro x hx
      show x ∉ (if d ∈ st.waiting then st.waiting else st.waiting ++ [d])
      rw [if_neg hdw]
      intro hc
      rcases List.mem_append.mp hc with hc | hc
      · exact hdisj x hx hc
      · rw [List.mem_singleton] at hc
        rw [hc] at hx
        exact hd hx

theorem completeSrc_stwf (tree : STree) (mh : Str → Str) (st : SchedState) (src : Str)
    (st2 : SchedState) (hw : StWF st)
    (h : completeSrc tree mh st src = .ok st2) : StWF st2 := by
  unfold completeSrc at h
  have h1 : StWF
      { st with
        hashes := alInsert src (tree.hashes src) st.hashes
        n_lines := st.n_lines + tree.line_nums src
        scheduled := st.scheduled.erase src } := by
    refine ⟨hw.1, (hw.2.1).erase src, ?_⟩
    intro x hx
    exact hw.2.2 x (List.mem_of_mem_erase hx)
  exact modsLoop_ok_pres tree mh StWF (tree.src_mods src)
    (fun st' m st2' _ hP hpm =>
      propagateMod_ok_pres tree mh StWF m (fun s hs => hs)
        (fun s d _ hP' hds => consumerStep_stwf tree s d hP' hds) st' st2' hP hpm)
    _ _ h1 h

theorem step_stwf (tree : STree) (tasks : Str → TaskI) (st st' : SchedState)
    (hw : StWF st) (hstep : Step tree tasks st st') : StWF st' := by
  obtain ⟨src, mh, _, hc⟩ := hstep
  exact completeSrc_stwf tree mh _ src st' (dp_stwf tree tasks st hw) hc

theorem reach_stwf (tree : STree) (tasks : Str → TaskI) (prior : List (Str × Str))
    (changed : List Str) (hnd : changed.Nodup) (st : SchedState)
    (hr : Reachable tree tasks (initState tree prior changed) st) : StWF st := by
  induction hr with
  | refl => exact ⟨hnd, List.nodup_nil, by intro x hx; exact absurd hx (List.not_mem_nil x)⟩
  | tail _ hstep ih => exact step_stwf tree tasks _ _ ih hstep

/-! ## C2: the dispatch gate and the effects of dispatch -/

/-- Claim C2: in every reachable state of the scheduler loop, a source is
dispatched only when no member of its ancestor set is waiting or scheduled
at that moment, and the dispatch removes the source's entry from the live
hash map and pushes `(-priority[s], s, args + (source_path,))` onto the
priority queue. -/
theorem c2_dispatch_gate (tree : STree) (tasks : Str → TaskI) (prior : List (Str × Str))
    (changed : List Str) (st : SchedState) (src : Str)
    (hnd : changed.Nodup)
    (hr : Reachable tree tasks (initState tree prior changed) st)
    (hmem : src ∈ (dispatchPass tree tasks st).scheduled)
    (hnew : src ∉ st.scheduled) :
    (∀ a ∈ tree.ancestors src, a ∉ st.waiting ∧ a ∉ st.scheduled) ∧
    alLookup src (dispatchPass tree tasks st).hashes = none ∧
    (-(tree.priority src), src, (tasks src).args ++ [(tasks src).source]) ∈
      (dispatchPass tree tasks st).queue := by
  have hw := reach_stwf tree tasks prior changed hnd st hr
  have hwn := hw.1
  rw [dp_mem_scheduled tree tasks st hwn] at hmem
  rcases hmem with h | ⟨hww, hg⟩
  · exact absurd h hnew
  refine ⟨?_, ?_, ?_⟩
  · intro a ha
    have := hg a ha
    constructor
    · intro hc
      exact this (List.mem_append.mpr (Or.inl hc))
    · intro hc
      exact this (List.mem_append.mpr (Or.inr hc))
  · rw [dp_lookup tree tasks st hwn]
    rw [if_pos ⟨hww, hg⟩]
  · rw [dispatchPass_eq tree tasks st hwn]
    apply List.mem_append.mpr
    right
    exact List.mem_map_of_mem (qItem tree tasks)
      (List.mem_filter.mpr ⟨hww, decide_eq_true hg⟩)

theorem c2_dispatch_gate_witness :
    ([caS, cbS] : List Str).Nodup ∧
    caS ∈ (dispatchPass wtree wtasks winit).scheduled ∧
    caS ∉ winit.scheduled ∧
    ((∀ a ∈ wtree.ancestors caS, a ∉ winit.waiting ∧ a ∉ winit.scheduled) ∧
      alLookup caS (dispatchPass wtree wtasks winit).hashes = none ∧
      (-(wtree.priority caS), caS, (wtasks caS).args ++ [(wtasks caS).source]) ∈
        (dispatchPass wtree wtasks winit).queue) :=
  ⟨by decide, by decide, by decide,
    c2_dispatch_gate wtree wtasks [] [caS, cbS] winit caS (by decide)
      Relation.ReflTransGen.refl (by decide) (by decide)⟩

/-! ## The consumer walk, characterised exactly -/

theorem propLoop_eq (tree : STree) :
    ∀ (D : List Str) (st : SchedState), D.Nodup → (∀ d ∈ D, d ∉ st.scheduled) →
      propLoop tree st D = .ok
        { waiting := st.waiting ++ D.filter (fun d => decide (d ∉ st.waiting))
          scheduled := st.scheduled
          hashes := st.hashes.filter (fun p => decide (p.1 ∉ D))
          queue := st.queue
          n_lines := st.n_lines
          n_all_lines := st.n_all_lines +
            ((D.filter (fun d => decide (d ∉ st.waiting))).map tree.line_nums).sum } := by
  intro D
  induction D with
  | nil =>
    intro st _ _
    unfold propLoop
    simp only [List.filter_nil, List.append_nil, List.map_nil, List.sum_nil, Nat.add_zero]
    rw [List.filter_eq_self.mpr (fun p _ => by simp)]
  | cons d D ih =>
    intro st hnd hns
    obtain ⟨hdD, hDnd⟩ := List.nodup_cons.mp hnd
    unfold propLoop
    rw [if_neg (hns d (List.mem_cons_self d D))]
    have hns' : ∀ x ∈ D, x ∉ (consumerStep tree st d).scheduled := by
      intro x hx
      exact hns x (List.mem_cons_of_mem d hx)
    rw [ih (consumerStep tree st d) hDnd hns']
    have e0s : (consumerStep tree st d).scheduled = st.scheduled := rfl
    have e0q : (consumerStep tree st d).queue = st.queue := rfl
    have e0l : (consumerStep tree st d).n_lines = st.n_lines := rfl
    have e3 : (consumerStep tree st d).hashes = alErase d st.hashes := rfl
    have eH : (alErase d st.hashes).filter (fun p => decide (p.1 ∉ D)) =
        st.hashes.filter (fun p => decide (p.1 ∉ d :: D)) := by
      unfold alErase
      rw [List.filter_filter]
      apply List.filter_congr
      intro p _
      rw [Bool.eq_iff_iff]
      simp only [Bool.and_eq_true, decide_eq_true_eq, List.mem_cons]
      constructor
      · rintro ⟨hnD, hnd'⟩
        rintro (he | hD)
        · exact hnd' he
        · exact hnD hD
      · intro hn
        exact ⟨fun hD => hn (Or.inr hD), fun he => hn (Or.inl he)⟩
    by_cases hdw : d ∈ st.waiting
    · have e1 : (consumerStep tree st d).waiting = st.waiting := by
        unfold consumerStep
        rw [if_pos hdw]
      have e2 : (consumerStep tree st d).n_all_lines = st.n_all_lines := by
        unfold consumerStep
        show (if d ∈ st.waiting then st.n_all_lines else _) = st.n_all_lines
        rw [if_pos hdw]
      have e4 : (d :: D).filter (fun x => decide (x ∉ st.waiting)) =
          D.filter (fun x => decide (x ∉ st.waiting)) := by
        rw [List.filter_cons, if_neg]
        simp only [decide_eq_true_eq, not_not]
        exact hdw
      rw [e0s, e0q, e0l, e1, e2, e3, e4, eH]
    · have e1 : (consumerStep tree st d).waiting = st.waiting ++ [d] := by
        unfold consumerStep
        rw [if_neg hdw]
      have e2 : (consumerStep tree st d).n_all_lines =
          st.n_all_lines + tree.line_nums d := by
        unfold consumerStep
        show (if d ∈ st.waiting then st.n_all_lines else _) = _
        rw [if_neg hdw]
      have e4 : (d :: D).filter (fun x => decide (x ∉ st.waiting)) =
          d :: D.filter (fun x => decide (x ∉ st.waiting)) := by
        rw [List.filter_cons, if_pos (decide_eq_true hdw)]
      have e5 : D.filter (fun x => decide (x ∉ st.waiting ++ [d])) =
          D.filter (fun x => decide (x ∉ st.waiting)) := by
        apply List.filter_congr
        intro x hx
        rw [Bool.eq_iff_iff]
        simp only [decide_eq_true_eq, List.mem_append, List.mem_singleton]
        constructor
        · intro hn hc
          exact hn (Or.inl hc)
        · intro hn
          rintro (hc | hc)
          · exact hn hc
          · rw [hc] at hx
            exact absurd hx hdD
      rw [e0s, e0q, e0l, e1, e2, e3, e5, eH, e4]
      rw [List.append_assoc, List.map_cons, List.sum_cons]
      rw [show st.waiting ++ ([d] ++ D.filter (fun x => decide (x ∉ st.waiting))) =
        st.waiting ++ d :: D.filter (fun x => decide (x ∉ st.waiting)) from rfl]
      rw [Nat.add_assoc]

/-! ## C1: interface-hash propagation for one module -/

/-- Claim C1: for a module `m` of a just-completed source, if the hash of
`<m>.mod` equals the stored one, the propagation step leaves the state
unchanged (nothing enters `waiting`, `n_all_lines` does not grow); if it
differs, the stored hash is updated and exactly the consumers of `m` not
already waiting are inserted, growing `n_all_lines` by their line
counts. -/
theorem c1_mod_hash_propagation (tree : STree) (mh : Str → Str) (st : SchedState) (m : Str)
    (hnd : (tree.mod_uses m).Nodup)
    (hns : ∀ d ∈ tree.mod_uses m, d ∉ st.scheduled)
    (hnm : ∀ d ∈ tree.mod_uses m, ¬ d = m ++ (".mod").toList) :
    (alLookup (m ++ (".mod").toList) st.hashes = some (mh (m ++ (".mod").toList)) →
      propagateMod tree mh st m = .ok st) ∧
    (¬ alLookup (m ++ (".mod").toList) st.hashes = some (mh (m ++ (".mod").toList)) →
      ∃ st2, propagateMod tree mh st m = .ok st2 ∧
        alLookup (m ++ (".mod").toList) st2.hashes = some (mh (m ++ (".mod").toList)) ∧
        st2.waiting = st.waiting ++
          (tree.mod_uses m).filter (fun d => decide (d ∉ st.waiting)) ∧
        st2.scheduled = st.scheduled ∧
        st2.n_all_lines = st.n_all_lines +
          (((tree.mod_uses m).filter (fun d => decide (d ∉ st.waiting))).map
            tree.line_nums).sum ∧
        st2.n_lines = st.n_lines) := by
  constructor
  · intro he
    unfold propagateMod
    rw [if_pos he]
  · intro he
    unfold propagateMod
    rw [if_neg he]
    set stI : SchedState :=
      { st with hashes :=
          alInsert (m ++ (".mod").toList) (mh (m ++ (".mod").toList)) st.hashes } with hstI
    have hns' : ∀ d ∈ tree.mod_uses m, d ∉ stI.scheduled := hns
    rw [propLoop_eq tree (tree.mod_uses m) stI hnd hns']
    refine ⟨_, rfl, ?_, rfl, rfl, ?_, rfl⟩
    · show alLookup (m ++ (".mod").toList)
        (stI.hashes.filter (fun p => decide (p.1 ∉ tree.mod_uses m))) = _
      rw [alLookup_filter (fun s => decide (s ∉ tree.mod_uses m)) stI.hashes _]
      rw [if_pos]
      · show alLookup _ (alInsert (m ++ (".mod").toList) (mh (m ++ (".mod").toList)) st.hashes) = _
        rw [alLookup_insert]
        rw [if_pos rfl]
      · apply decide_eq_true
        intro hc
        exact hnm _ hc rfl
    · rfl

theorem c1_mod_hash_propagation_witness :
    (wtree.mod_uses mS).Nodup ∧
    (∀ d ∈ wtree.mod_uses mS, d ∉ wstC1.scheduled) ∧
    (∀ d ∈ wtree.mod_uses mS, ¬ d = mS ++ (".mod").toList) ∧
    ((alLookup (mS ++ (".mod").toList) wstC1.hashes = some (wmh (mS ++ (".mod").toList)) →
      propagateMod wtree wmh wstC1 mS = .ok wstC1) ∧
    (¬ alLookup (mS ++ (".mod").toList) wstC1.hashes = some (wmh (mS ++ (".mod").toList)) →
      ∃ st2, propagateMod wtree wmh wstC1 mS = .ok st2 ∧
        alLookup (mS ++ (".mod").toList) st2.hashes = some (wmh (mS ++ (".mod").toList)) ∧
        st2.waiting = wstC1.waiting ++
          (wtree.mod_uses mS).filter (fun d => decide (d ∉ wstC1.waiting)) ∧
        st2.scheduled = wstC1.scheduled ∧
        st2.n_all_lines = wstC1.n_all_lines +
          (((wtree.mod_uses mS).filter (fun d => decide (d ∉ wstC1.waiting))).map
            wtree.line_nums).sum ∧
        st2.n_lines = wstC1.n_lines)) :=
  ⟨by decide, by decide, by decide,
    c1_mod_hash_propagation wtree wmh wstC1 mS (by decide) (by decide) (by decide)⟩

/-! ## C9: the assertion in the propagation loop never fires -/

theorem propLoop_pres (tree : STree) (P : SchedState → Prop) :
    ∀ (D : List Str),
      (∀ st d, d ∈ D → P st → d ∉ st.scheduled ∧ P (consumerStep tree st d)) →
      ∀ st, P st → ∃ st2, propLoop tree st D = .ok st2 ∧ P st2 := by
  intro D
  induction D with
  | nil =>
    intro _ st hP
    exact ⟨st, rfl, hP⟩
  | cons d D ih =>
    intro hstep st hP
    obtain ⟨hd, hP'⟩ := hstep st d (List.mem_cons_self d D) hP
    unfold propLoop
    rw [if_neg hd]
    exact ih (fun st' d' hd' => hstep st' d' (List.mem_cons_of_mem d hd')) _ hP'

theorem propagateMod_pres (tree : STree) (mh : Str → Str) (P : SchedState → Prop) (m : Str)
    (hins : ∀ st, P st →
      P { st with hashes :=
            alInsert (m ++ (".mod").toList) (mh (m ++ (".mod").toList)) st.hashes })
    (hcons : ∀ st d, d ∈ tree.mod_uses m → P st →
      d ∉ st.scheduled ∧ P (consumerStep tree st d)) :
    ∀ st, P st → ∃ st2, propagateMod tree mh st m = .ok st2 ∧ P st2 := by
  intro st hP
  simp only [propagateMod]
  split
  · exact ⟨st, rfl, hP⟩
  · exact propLoop_pres tree P (tree.mod_uses m) hcons _ (hins st hP)

theorem modsLoop_pres (tree : STree) (mh : Str → Str) (P : SchedState → Prop) :
    ∀ (ms : List Str),
      (∀ st m, m ∈ ms → P st → ∃ st2, propagateMod tree mh st m = .ok st2 ∧ P st2) →
      ∀ st, P st → ∃ st2, modsLoop tree mh st ms = .ok st2 ∧ P st2 := by
  intro ms
  induction ms with
  | nil =>
    intro _ st hP
    exact ⟨st, rfl, hP⟩
  | cons m ms ih =>
    intro hstep st hP
    obtain ⟨st1, heq, hP1⟩ := hstep st m (List.mem_cons_self m ms) hP
    unfold modsLoop
    rw [heq]
    exact ih (fun st' m' hm' => hstep st' m' (List.mem_cons_of_mem m hm')) _ hP1

theorem completeSrc_inv (tree : STree) (mh : Str → Str) (st1 : SchedState) (src : Str)
    (hwf : TreeWF tree) (hw : StWF st1) (hi : Inv tree st1)
    (hsrc : src ∈ st1.scheduled) :
    ∃ st2, completeSrc tree mh st1 src = .ok st2 ∧ StWF st2 ∧ Inv tree st2 := by
  obtain ⟨hwn, hsn, hdisj⟩ := hw
  set S := st1.scheduled.erase src with hS
  set P : SchedState → Prop := fun s =>
    s.scheduled = S ∧ s.waiting.Nodup ∧ (∀ x ∈ S, x ∉ s.waiting) ∧
      ∀ d ∈ S, ∀ a ∈ tree.ancestors d, a ∉ s.waiting ∧ a ∉ S with hP
  have hSsub : ∀ x ∈ S, x ∈ st1.scheduled := fun x hx => List.mem_of_mem_erase hx
  have hstart : P
      { st1 with
        hashes := alInsert src (tree.hashes src) st1.hashes
        n_lines := st1.n_lines + tree.line_nums src
        scheduled := st1.scheduled.erase src } := by
    refine ⟨rfl, hwn, ?_, ?_⟩
    · intro x hx
      exact hdisj x (hSsub x hx)
    · intro d hd a ha
      obtain ⟨h1, h2⟩ := hi d (hSsub d hd) a ha
      exact ⟨h1, fun hc => h2 (hSsub a hc)⟩
  have hmods : ∀ st' m, m ∈ tree.src_mods src → P st' →
      ∃ st2, propagateMod tree mh st' m = .ok st2 ∧ P st2 := by
    intro st' m hm hPst
    apply propagateMod_pres tree mh P m (fun s hs => hs)
    · intro s d hd hPs
      obtain ⟨hsch, hwn', hdisj', hIW⟩ := hPs
      have hdS : d ∉ S := by
        intro hdS
        have hda := hwf.uses_anc src m d hm hd
        exact (hi d (hSsub d hdS) src hda).2 hsrc
      constructor
      · rw [hsch]
        exact hdS
      · refine ⟨hsch, ?_, ?_, ?_⟩
        · show (if d ∈ s.waiting then s.waiting else s.waiting ++ [d]).Nodup
          by_cases hdw : d ∈ s.waiting
          · rw [if_pos hdw]
            exact hwn'
          · rw [if_neg hdw]
            refine hwn'.append (List.nodup_singleton d) ?_
            intro x hx hx'
            rw [List.mem_singleton] at hx'
            rw [hx'] at hx
            exact hdw hx
        · intro x hx
          show x ∉ (if d ∈ s.waiting then s.waiting else s.waiting ++ [d])
          by_cases hdw : d ∈ s.waiting
          · rw [if_pos hdw]
            exact hdisj' x hx
          · rw [if_neg hdw]
            intro hc
            rcases List.mem_append.mp hc with hc | hc
            · exact hdisj' x hx hc
            · rw [List.mem_singleton] at hc
              rw [hc] at hx
              exact hdS hx
        · intro d' hd' a ha
          refine ⟨?_, (hIW d' hd' a ha).2⟩
          show a ∉ (if d ∈ s.waiting then s.waiting else s.waiting ++ [d])
          by_cases hdw : d ∈ s.waiting
          · rw [if_pos hdw]
            exact (hIW d' hd' a ha).1
          · rw [if_neg hdw]
            intro hc
            rcases List.mem_append.mp hc with hc | hc
            · exact (hIW d' hd' a ha).1 hc
            · rw [List.mem_singleton] at hc
              rw [hc] at ha
              have hsrcd : src ∈ tree.ancestors d' := by
                apply hwf.anc_trans d' d ha
                exact hwf.uses_anc src m d hm hd
              exact (hi d' (hSsub d' hd') src hsrcd).2 hsrc
    · exact hPst
  obtain ⟨st2, heq, hP2⟩ := modsLoop_pres tree mh P (tree.src_mods src) hmods _ hstart
  refine ⟨st2, heq, ⟨hP2.2.1, ?_, ?_⟩, ?_⟩
  · rw [hP2.1]
    exact hsn.erase src
  · intro x hx
    rw [hP2.1] at hx
    exact hP2.2.2.1 x hx
  · intro d hd a ha
    rw [hP2.1] at hd
    obtain ⟨h1, h2⟩ := hP2.2.2.2 d hd a ha
    refine ⟨h1, ?_⟩
    rw [hP2.1]
    exact h2

theorem step_inv (tree : STree) (tasks : Str → TaskI) (st st' : SchedState)
    (hwf : TreeWF tree) (hw : StWF st) (hi : Inv tree st)
    (hstep : Step tree tasks st st') : Inv tree st' := by
  obtain ⟨src, mh, hs, hc⟩ := hstep
  obtain ⟨st2, heq, _, hinv⟩ := completeSrc_inv tree mh (dispatchPass tree tasks st) src hwf
    (dp_stwf tree tasks st hw) (dp_inv tree tasks st hw hi) hs
  rw [hc] at heq
  injection heq with heq
  rw [← heq] at hinv
  exact hinv

theorem reach_inv (tree : STree) (tasks : Str → TaskI) (prior : List (Str × Str))
    (changed : List Str) (hwf : TreeWF tree) (hnd : changed.Nodup) (st : SchedState)
    (hr : Reachable tree tasks (initState tree prior changed) st) :
    StWF st ∧ Inv tree st := by
  induction hr with
  | refl =>
    refine ⟨⟨hnd, List.nodup_nil, ?_⟩, ?_⟩
    · intro x hx
      exact absurd hx (List.not_mem_nil x)
    · intro d hd
      exact absurd hd (List.not_mem_nil d)
  | tail _ hstep ih =>
    exact ⟨step_stwf tree tasks _ _ ih.1 hstep,
      step_inv tree tasks _ _ hwf ih.1 ih.2 hstep⟩

/-- Claim C9: from any state the scheduler loop can reach, handling a
completion of any in-flight source succeeds — in particular the
`assert src not in scheduled` inside the interface-propagation loop never
fires, because the ancestor-gated dispatch rule keeps consumers of a
scheduled source's modules out of `scheduled`. -/
theorem c9_assert_safe (tree : STree) (tasks : Str → TaskI) (prior : List (Str × Str))
    (changed : List Str) (st : SchedState) (src : Str) (mh : Str → Str)
    (hwf : TreeWF tree) (hnd : changed.Nodup)
    (hr : Reachable tree tasks (initState tree prior changed) st)
    (hs : src ∈ (dispatchPass tree tasks st).scheduled) :
    ∃ st2, completeSrc tree mh (dispatchPass tree tasks st) src = .ok st2 := by
  obtain ⟨hw, hi⟩ := reach_inv tree tasks prior changed hwf hnd st hr
  obtain ⟨st2, heq, _, _⟩ := completeSrc_inv tree mh (dispatchPass tree tasks st) src hwf
    (dp_stwf tree tasks st hw) (dp_inv tree tasks st hw hi) hs
  exact ⟨st2, heq⟩

theorem c9_assert_safe_witness :
    TreeWF wtree ∧ ([caS, cbS] : List Str).Nodup ∧
    caS ∈ (dispatchPass wtree wtasks winit).scheduled ∧
    ∃ st2, completeSrc wtree wmh (dispatchPass wtree wtasks winit) caS = .ok st2 := by
  have hwf : TreeWF wtree := by
    constructor
    · intro d e he a ha
      by_cases hd : d = cbS
      · subst hd
        rw [show wtree.ancestors cbS = [caS] from rfl, List.mem_singleton] at he
        subst he
        rw [show wtree.ancestors caS = [] from rfl] at ha
        exact absurd ha (List.not_mem_nil a)
      · rw [show wtree.ancestors d = if d = cbS then [caS] else [] from rfl, if_neg hd] at he
        exact absurd he (List.not_mem_nil e)
    · intro c m d hm hd
      by_cases hc : c = caS
      · subst hc
        rw [show wtree.src_mods caS = [mS] from rfl, List.mem_singleton] at hm
        subst hm
        rw [show wtree.mod_uses mS = [cbS] from rfl, List.mem_singleton] at hd
        subst hd
        rw [show wtree.ancestors cbS = [caS] from rfl]
        exact List.mem_singleton.mpr rfl
      · rw [show wtree.src_mods c = if c = caS then [mS] else [] from rfl, if_neg hc] at hm
        exact absurd hm (List.not_mem_nil m)
  exact ⟨hwf, by decide, by decide,
    c9_assert_safe wtree wtasks [] [caS, cbS] winit caS wmh hwf (by decide)
      Relation.ReflTransGen.refl (by decide)⟩

/-! ## C4: the changed set and the argument-salted source hash -/

theorem phase1_hashes (sha1 : Str → Str) (reprT : List Str → Str) :
    ∀ (ts : List (Str × PTask)) (acc : P1) (p : P1),
      phase1 sha1 reprT ts acc = .ok p →
      p.hashes = acc.hashes ++
        ts.map (fun q => (q.1, get_hash sha1 reprT (some q.2.args) q.2.content)) := by
  intro ts
  induction ts with
  | nil =>
    intro acc p h
    unfold phase1 at h
    injection h with h
    rw [← h]
    simp
  | cons q ts ih =>
    intro acc p h
    obtain ⟨src, t⟩ := q
    unfold phase1 at h
    cases hp : parse_modules (pySplitLines t.content) with
    | none =>
      rw [hp] at h
      exact Except.noConfusion h
    | some r =>
      rw [hp] at h
      obtain ⟨n, defined, used⟩ := r
      dsimp only at h
      cases hd : defLoop src
          { src_mods := acc.src_mods ++ [(src, defined)]
            mod_defs := acc.mod_defs
            src_deps := acc.src_deps ++ [(src, used)]
            hashes := acc.hashes ++ [(src, get_hash sha1 reprT (some t.args) t.content)]
            line_nums := acc.line_nums ++ [(src, n)] : P1}.mod_defs defined with
      | error e =>
        rw [hd] at h
        exact Except.noConfusion h
      | ok md =>
        rw [hd] at h
        have hih := ih _ _ h
        rw [hih]
        simp only [List.map_cons, List.append_assoc]
        rfl

theorem get_tree_hashes (sha1 : Str → Str) (reprT : List Str → Str)
    (tasks : List (Str × PTask)) (mx : Str → Str → Bool) (g : GTree)
    (h : get_tree sha1 reprT tasks mx = .ok g) :
    g.hashes = tasks.map (fun q => (q.1, get_hash sha1 reprT (some q.2.args) q.2.content)) := by
  unfold get_tree at h
  cases hp : phase1 sha1 reprT tasks ⟨[], [], [], [], []⟩ with
  | error e =>
    rw [hp] at h
    exact Except.noConfusion h
  | ok p =>
    rw [hp] at h
    dsimp only at h
    cases h3 : phase3 mx tasks (phase2 p.mod_defs p.src_deps) with
    | error e =>
      rw [h3] at h
      exact Except.noConfusion h
    | ok deps =>
      rw [h3] at h
      dsimp only at h
      cases hu : firstUndef p.mod_defs deps with
      | some m =>
        rw [hu] at h
        exact Except.noConfusion h
      | none =>
        rw [hu] at h
        injection h with h
        rw [← h]
        have := phase1_hashes sha1 reprT tasks _ p hp
        simpa using this

theorem alLookup_mapped (F : Str × PTask → Str) :
    ∀ (ts : List (Str × PTask)) (src : Str) (t : PTask),
      (ts.map Prod.fst).Nodup → (src, t) ∈ ts →
      alLookup src (ts.map (fun q => (q.1, F q))) = some (F (src, t)) := by
  intro ts
  induction ts with
  | nil =>
    intro src t _ h
    exact absurd h (List.not_mem_nil _)
  | cons q ts ih =>
    intro src t hnd hmem
    rw [List.map_cons, List.nodup_cons] at hnd
    obtain ⟨hq, hnd'⟩ := hnd
    rcases List.mem_cons.mp hmem with he | hm
    · rw [← he]
      show alLookup src ((src, F (src, t)) :: ts.map (fun q => (q.1, F q))) = some (F (src, t))
      unfold alLookup
      rw [if_pos rfl]
    · have hne : ¬ q.1 = src := by
        intro he
        apply hq
        rw [he]
        exact List.mem_map_of_mem Prod.fst hm
      show alLookup src ((q.1, F q) :: ts.map (fun q => (q.1, F q))) = some (F (src, t))
      unfold alLookup
      rw [if_neg hne]
      exact ih src t hnd' hm

/-- Claim C4: the changed set is exactly the set of sources whose
current-run hash differs from the prior-run one; the current-run hash is
the digest of `repr(args)` followed by the file bytes, so a task with
unchanged bytes but a different argument tuple is in the changed set; and
an empty changed set or the dry flag makes `build` return without
spawning workers. -/
theorem c4_changed_files (sha1 : Str → Str) (reprT : List Str → Str)
    (tasks : List (Str × PTask)) (mx : Str → Str → Bool) (cache : CacheContent)
    (dry : Bool) (trace : List Ev) (g : GTree) (v : PyJson) (prior : List (Str × Str))
    (hg : get_tree sha1 reprT tasks mx = .ok g)
    (hnd : (tasks.map Prod.fst).Nodup)
    (hload : loadCache cache = .ok v)
    (hmap : asStrMap v = some prior)
    (hinj : Function.Injective sha1) :
    (∀ s, s ∈ changedOf g prior (tasks.map Prod.fst) ↔
      s ∈ tasks.map Prod.fst ∧ ¬ alLookup s g.hashes = alLookup s prior) ∧
    (∀ src t, (src, t) ∈ tasks →
      alLookup src g.hashes = some (sha1 (reprT t.args ++ t.content))) ∧
    (∀ src t oldArgs, (src, t) ∈ tasks →
      alLookup src prior = some (sha1 (reprT oldArgs ++ t.content)) →
      ¬ reprT oldArgs = reprT t.args →
      src ∈ changedOf g prior (tasks.map Prod.fst)) ∧
    ((changedOf g prior (tasks.map Prod.fst) = [] ∨ dry = true) →
      buildModel sha1 reprT tasks mx cache dry trace = .noWork) := by
  have hhash : ∀ src t, (src, t) ∈ tasks →
      alLookup src g.hashes = some (sha1 (reprT t.args ++ t.content)) := by
    intro src t hmem
    rw [get_tree_hashes sha1 reprT tasks mx g hg]
    exact alLookup_mapped (fun q => get_hash sha1 reprT (some q.2.args) q.2.content)
      tasks src t hnd hmem
  have hchange : ∀ s, s ∈ changedOf g prior (tasks.map Prod.fst) ↔
      s ∈ tasks.map Prod.fst ∧ ¬ alLookup s g.hashes = alLookup s prior := by
    intro s
    unfold changedOf
    rw [List.mem_filter]
    simp only [decide_eq_true_eq]
  refine ⟨hchange, hhash, ?_, ?_⟩
  · intro src t oldArgs hmem hprior hne
    rw [hchange src]
    refine ⟨List.mem_map_of_mem Prod.fst hmem, ?_⟩
    rw [hhash src t hmem, hprior]
    intro he
    injection he with he
    have := hinj he
    exact hne (List.append_cancel_right this.symm)
  · intro h
    unfold buildModel
    rw [hg, hload]
    dsimp only
    rw [hmap]
    dsimp only
    show (if changedOf g prior (tasks.map Prod.fst) = [] ∨ dry = true then BuildOut.noWork
      else _) = BuildOut.noWork
    rw [if_pos h]

theorem c4_changed_files_witness :
    get_tree idSha joinRepr tasks4 mx0 = .ok g4 ∧
    (tasks4.map Prod.fst).Nodup ∧
    loadCache cache4 = .ok (.jobj [(caS, .jstr (("h").toList ++ ("x = 1\n").toList))]) ∧
    asStrMap (.jobj [(caS, .jstr (("h").toList ++ ("x = 1\n").toList))]) = some c4prior ∧
    (caS, t4) ∈ tasks4 ∧
    alLookup caS c4prior = some (idSha (joinRepr [("h").toList] ++ t4.content)) ∧
    ¬ joinRepr [("h").toList] = joinRepr t4.args ∧
    caS ∈ changedOf g4 c4prior (tasks4.map Prod.fst) := by
  refine ⟨rfl, by decide, rfl, rfl, by decide, by decide, by decide, ?_⟩
  exact (c4_changed_files idSha joinRepr tasks4 mx0 cache4 false [] g4
      (.jobj [(caS, .jstr (("h").toList ++ ("x = 1\n").toList))]) c4prior rfl (by decide)
      rfl rfl (fun a b hab => hab)).2.2.1 caS t4 [("h").toList] (by decide) (by decide)
    (by decide)

/-! ## C8: the cache is flushed on every exit of the scheduling phase -/

theorem dp_invh (tree : STree) (tasks : Str → TaskI) (SRC : Str → Prop) (st : SchedState)
    (hI : InvH SRC st) : InvH SRC (dispatchPass tree tasks st) := by
  obtain ⟨hw, hnone, hsrc⟩ := hI
  refine ⟨dp_stwf tree tasks st hw, ?_, ?_⟩
  · intro s hs
    rw [dp_lookup tree tasks st hw.1]
    rw [dp_mem_scheduled tree tasks st hw.1] at hs
    rcases hs with hs | ⟨hsw, hsg⟩
    · by_cases hc : s ∈ st.waiting ∧ gateP tree (st.waiting ++ st.scheduled) s
      · rw [if_pos hc]
      · rw [if_neg hc]
        exact hnone s hs
    · rw [if_pos ⟨hsw, hsg⟩]
  · intro s hs
    exact hsrc s ((dp_union tree tasks st hw.1 s).mp hs)

theorem completeSrc_invh (tree : STree) (mh : Str → Str) (st : SchedState) (src : Str)
    (st2 : SchedState) (SRC : Str → Prop)
    (huses : ∀ m d, d ∈ tree.mod_uses m → SRC d)
    (hclash : ∀ s, SRC s → ∀ m : Str, ¬ s = m ++ (".mod").toList)
    (hI : InvH SRC st) (h : completeSrc tree mh st src = .ok st2) : InvH SRC st2 := by
  obtain ⟨⟨hwn, hsn, hdisj⟩, hnone, hsrc⟩ := hI
  unfold completeSrc at h
  have h1 : InvH SRC
      { st with
        hashes := alInsert src (tree.hashes src) st.hashes
        n_lines := st.n_lines + tree.line_nums src
        scheduled := st.scheduled.erase src } := by
    refine ⟨⟨hwn, hsn.erase src, ?_⟩, ?_, ?_⟩
    · intro x hx
      exact hdisj x (List.mem_of_mem_erase hx)
    · intro s hs
      obtain ⟨hne, hmem⟩ := (hsn.mem_erase_iff).mp hs
      show alLookup s (alInsert src (tree.hashes src) st.hashes) = none
      rw [alLookup_insert]
      rw [if_neg (fun he => hne he.symm)]
      exact hnone s hmem
    · intro s hs
      rcases hs with hs | hs
      · exact hsrc s (Or.inl hs)
      · exact hsrc s (Or.inr (List.mem_of_mem_erase hs))
  refine modsLoop_ok_pres tree mh (InvH SRC) (tree.src_mods src) ?_ _ _ h1 h
  intro st' m st2' _ hP hpm
  refine propagateMod_ok_pres tree mh (InvH SRC) m ?_ ?_ st' st2' hP hpm
  · intro s hsI
    obtain ⟨hw', hnone', hsrc'⟩ := hsI
    refine ⟨hw', ?_, hsrc'⟩
    intro x hx
    show alLookup x (alInsert (m ++ (".mod").toList) (mh (m ++ (".mod").toList)) s.hashes) = none
    rw [alLookup_insert]
    rw [if_neg (fun he => hclash x (hsrc' x (Or.inr hx)) m he.symm)]
    exact hnone' x hx
  · intro s d hd hsI hds
    obtain ⟨hw', hnone', hsrc'⟩ := hsI
    refine ⟨consumerStep_stwf tree s d hw' hds, ?_, ?_⟩
    · intro x hx
      show alLookup x (alErase d s.hashes) = none
      rw [alLookup_erase]
      by_cases hxd : x = d
      · rw [if_pos hxd]
      · rw [if_neg hxd]
        exact hnone' x hx
    · intro x hx
      rcases hx with hx | hx
      · have hx' : x ∈ (if d ∈ s.waiting then s.waiting else s.waiting ++ [d]) := hx
        by_cases hdw : d ∈ s.waiting
        · rw [if_pos hdw] at hx'
          exact hsrc' x (Or.inl hx')
        · rw [if_neg hdw] at hx'
          rcases List.mem_append.mp hx' with hx' | hx'
          · exact hsrc' x (Or.inl hx')
          · rw [List.mem_singleton] at hx'
            rw [hx']
            exact huses m d hd
      · exact hsrc' x (Or.inr hx)

theorem runTrace_compErr (tree : STree) (tasks : Str → TaskI) (SRC : Str → Prop)
    (huses : ∀ m d, d ∈ tree.mod_uses m → SRC d)
    (hclash : ∀ s, SRC s → ∀ m : Str, ¬ s = m ++ (".mod").toList) :
    ∀ (evs : List Ev) (st : SchedState) (s : Str) (hs : List (Str × Str)),
      InvH SRC st → ValidTrace tree tasks evs st →
      runTrace tree tasks evs st = .compErr s hs → alLookup s hs = none := by
  intro evs
  induction evs with
  | nil =>
    intro st s hs _ _ h
    unfold runTrace at h
    by_cases hend : st.waiting = [] ∧ st.scheduled = []
    · rw [if_pos hend] at h
      exact RunOut.noConfusion h
    · rw [if_neg hend] at h
      exact RunOut.noConfusion h
  | cons ev evs ih =>
    intro st s hs hI hv h
    unfold runTrace at h
    by_cases hend : st.waiting = [] ∧ st.scheduled = []
    · rw [if_pos hend] at h
      exact RunOut.noConfusion h
    · rw [if_neg hend] at h
      dsimp only at h
      unfold ValidTrace at hv
      rcases hv with hv | ⟨hvm, hvn⟩
      · exact absurd hv hend
      by_cases hrc : ev.retcode = 0
      · rw [if_pos hrc] at h
        cases hc : completeSrc tree ev.mh (dispatchPass tree tasks st) ev.src with
        | error e =>
          rw [hc] at h
          exact RunOut.noConfusion h
        | ok st2 =>
          rw [hc] at h
          exact ih st2 s hs
            (completeSrc_invh tree ev.mh _ ev.src st2 SRC huses hclash
              (dp_invh tree tasks SRC st hI) hc)
            (hvn st2 hc) h
      · rw [if_neg hrc] at h
        injection h with h1 h2
        rw [← h1, ← h2]
        exact (dp_invh tree tasks SRC st hI).2.1 ev.src hvm

/-- Counterexample to claim C8 as stated: a dry run with a nonempty
changed set is an invocation of `build` that returns successfully, yet no
cache document is written on exit. -/
theorem c8_counterexample :
    buildModel idSha joinRepr tasks4 mx0 .missing true [] = .noWork ∧
    cacheWritten (buildModel idSha joinRepr tasks4 mx0 .missing true []) = none ∧
    ¬ changedOf g4 [] (tasks4.map Prod.fst) = [] := by
  refine ⟨by decide, by decide, by decide⟩

/-- Claim C8 as amended: every invocation of `build` that reaches the
scheduling phase and exits — success, compilation error, or assertion
failure — rewrites the cache document on exit with the live hashes map;
in particular after a `CompilationError` the written map has no entry for
the failing source, whose hash was removed at dispatch and never
restored.  (Invocations that return before spawning workers — dry runs,
an empty changed set, a tree or cache-load failure — write nothing.) -/
theorem c8_cache_flush (sha1 : Str → Str) (reprT : List Str → Str)
    (tasks : List (Str × PTask)) (mx : Str → Str → Bool) (cache : CacheContent)
    (dry : Bool) (trace : List Ev) (g : GTree) (v : PyJson) (prior : List (Str × Str))
    (hg : get_tree sha1 reprT tasks mx = .ok g)
    (hnd : (tasks.map Prod.fst).Nodup)
    (hload : loadCache cache = .ok v)
    (hmap : asStrMap v = some prior)
    (hne : ¬ (changedOf g prior (tasks.map Prod.fst) = [] ∨ dry = true))
    (hclash : ∀ s, SRCset tasks (strTreeOf g) s → ∀ m : Str, ¬ s = m ++ (".mod").toList)
    (hv : ValidTrace (strTreeOf g) (taskFnOf tasks) trace
      (initState (strTreeOf g) prior (changedOf g prior (tasks.map Prod.fst)))) :
    buildModel sha1 reprT tasks mx cache dry trace =
      .ran (runTrace (strTreeOf g) (taskFnOf tasks) trace
        (initState (strTreeOf g) prior (changedOf g prior (tasks.map Prod.fst)))) ∧
    (∀ hs, runTrace (strTreeOf g) (taskFnOf tasks) trace
        (initState (strTreeOf g) prior (changedOf g prior (tasks.map Prod.fst))) =
          .success hs →
      cacheWritten (buildModel sha1 reprT tasks mx cache dry trace) = some hs) ∧
    (∀ s hs, runTrace (strTreeOf g) (taskFnOf tasks) trace
        (initState (strTreeOf g) prior (changedOf g prior (tasks.map Prod.fst))) =
          .compErr s hs →
      cacheWritten (buildModel sha1 reprT tasks mx cache dry trace) = some hs ∧
        alLookup s hs = none) ∧
    (∀ hs, runTrace (strTreeOf g) (taskFnOf tasks) trace
        (initState (strTreeOf g) prior (changedOf g prior (tasks.map Prod.fst))) =
          .assertFail hs →
      cacheWritten (buildModel sha1 reprT tasks mx cache dry trace) = some hs) := by
  have hrun : buildModel sha1 reprT tasks mx cache dry trace =
      .ran (runTrace (strTreeOf g) (taskFnOf tasks) trace
        (initState (strTreeOf g) prior (changedOf g prior (tasks.map Prod.fst)))) := by
    unfold buildModel
    rw [hg, hload]
    dsimp only
    rw [hmap]
    dsimp only
    rw [if_neg hne]
  have hinit : InvH (SRCset tasks (strTreeOf g))
      (initState (strTreeOf g) prior (changedOf g prior (tasks.map Prod.fst))) := by
    refine ⟨⟨hnd.filter _, List.nodup_nil, ?_⟩, ?_, ?_⟩
    · intro x hx
      exact absurd hx (List.not_mem_nil x)
    · intro s hs
      exact absurd hs (List.not_mem_nil s)
    · intro s hs
      rcases hs with hs | hs
      · exact Or.inl (List.mem_of_mem_filter hs)
      · exact absurd hs (List.not_mem_nil s)
  have huses : ∀ m d, d ∈ (strTreeOf g).mod_uses m → SRCset tasks (strTreeOf g) d :=
    fun m d hd => Or.inr ⟨m, hd⟩
  refine ⟨hrun, ?_, ?_, ?_⟩
  · intro hs hsuc
    rw [hrun, hsuc]
    rfl
  · intro s hs hcomp
    refine ⟨?_, ?_⟩
    · rw [hrun, hcomp]
      rfl
    · exact runTrace_compErr (strTreeOf g) (taskFnOf tasks) (SRCset tasks (strTreeOf g))
        huses hclash trace _ s hs hinit hv hcomp
  · intro hs hass
    rw [hrun, hass]
    rfl

theorem c8_cache_flush_witness :
    get_tree idSha joinRepr tasks4 mx0 = .ok g4 ∧
    ¬ (changedOf g4 [] (tasks4.map Prod.fst) = [] ∨ false = true) ∧
    runTrace (strTreeOf g4) (taskFnOf tasks4) trace8
      (initState (strTreeOf g4) [] (changedOf g4 [] (tasks4.map Prod.fst))) =
      .compErr caS [] ∧
    cacheWritten (buildModel idSha joinRepr tasks4 mx0 .missing false trace8) = some [] ∧
    alLookup caS ([] : List (Str × Str)) = none := by
  have hclash : ∀ s, SRCset tasks4 (strTreeOf g4) s → ∀ m : Str,
      ¬ s = m ++ (".mod").toList := by
    intro s hsm m hm
    rcases hsm with hsm | ⟨m', hm'⟩
    · rw [show tasks4.map Prod.fst = [caS] from rfl, List.mem_singleton] at hsm
      subst hsm
      have hlen : caS.length = (m ++ (".mod").toList).length := by rw [hm]
      rw [List.length_append] at hlen
      have h4 : ((".mod").toList : Str).length = 4 := rfl
      have h1 : (caS : Str).length = 1 := rfl
      omega
    · rw [show (strTreeOf g4).mod_uses m' = [] from rfl] at hm'
      exact absurd hm' (List.not_mem_nil s)
  have hv : ValidTrace (strTreeOf g4) (taskFnOf tasks4) trace8
      (initState (strTreeOf g4) [] (changedOf g4 [] (tasks4.map Prod.fst))) := by
    refine Or.inr ⟨by decide, ?_⟩
    intro st2 _
    trivial
  have happ := c8_cache_flush idSha joinRepr tasks4 mx0 .missing false trace8 g4
    (.jobj []) [] rfl (by decide) rfl rfl (by decide) hclash hv
  exact ⟨rfl, by decide, by decide, (happ.2.2.1 caS [] (by decide)).1,
    (happ.2.2.1 caS [] (by decide)).2⟩

/-! ## C6, amended: the per-line scan against the spec-worded parser -/

theorem extract_eq_spec (kw s : Str) (h : lowerStr (s.take kw.length) = kw) :
    extractKw kw s = specIdent (s.drop kw.length) := by
  unfold extractKw specIdent
  rw [if_pos h]
  rfl

theorem lineAct_eq_spec (line : Str) : lineAct line = lineActSpec line := by
  unfold lineAct lineActSpec
  cases hs : line.dropWhile pySpace with
  | nil => rfl
  | cons c cs =>
    dsimp only
    by_cases hc : c = '!'
    · rw [if_pos hc, if_pos hc]
    · rw [if_neg hc, if_neg hc]
      by_cases hm : lowerStr ((c :: cs).takeWhile (fun ch => ¬ ch = ' ')) =
          ("module").toList
      · rw [if_pos hm, if_pos hm]
        have hlen : ((c :: cs).takeWhile (fun ch => ¬ ch = ' ')).length =
            (("module").toList).length := by
          rw [← hm]
          simp [lowerStr]
        have htk : (c :: cs).take ((("module").toList).length) =
            (c :: cs).takeWhile (fun ch => ¬ ch = ' ') := by
          rw [← hlen]
          exact (List.prefix_iff_eq_take.mp (List.takeWhile_prefix _)).symm
        have hlit : lowerStr ((c :: cs).take ((("module").toList).length)) =
            ("module").toList := by
          rw [htk]
          exact hm
        rw [extract_eq_spec _ _ hlit, hlen]
      · rw [if_neg hm, if_neg hm]
        by_cases hu : lowerStr ((c :: cs).takeWhile (fun ch => ¬ ch = ' ')) =
            ("use").toList
        · rw [if_pos hu, if_pos hu]
          have hlen : ((c :: cs).takeWhile (fun ch => ¬ ch = ' ')).length =
              (("use").toList).length := by
            rw [← hu]
            simp [lowerStr]
          have htk : (c :: cs).take ((("use").toList).length) =
              (c :: cs).takeWhile (fun ch => ¬ ch = ' ') := by
            rw [← hlen]
            exact (List.prefix_iff_eq_take.mp (List.takeWhile_prefix _)).symm
          have hlit : lowerStr ((c :: cs).take ((("use").toList).length)) =
              ("use").toList := by
            rw [htk]
            exact hu
          rw [extract_eq_spec _ _ hlit, hlen]
        · rw [if_neg hu, if_neg hu]

theorem pmGo_congr (f g : Str → LAct) (hfg : ∀ l, f l = g l) :
    ∀ (ls : List Str) (n : Nat) (defs uses : List Str),
      pmGo f ls n defs uses = pmGo g ls n defs uses := by
  intro ls
  induction ls with
  | nil =>
    intro n defs uses
    rfl
  | cons l ls ih =>
    intro n defs uses
    unfold pmGo
    rw [hfg l]
    cases g l with
    | fail => rfl
    | skip => exact ih _ _ _
    | adddef m => exact ih _ _ _
    | adduse m => exact ih _ _ _

/-- Claim C6 as amended: on every input, `parse_modules` behaves exactly
as the claim describes once "first whitespace-delimited word" is read as
"first word delimited by a space character": empty and comment lines are
skipped; a line whose first space-delimited word lowercases to `module`
contributes its following identifier (a `\w+` run after one or more
whitespace characters, lowercased) unless the identifier is `procedure`;
a line whose first word lowercases to `use` likewise feeds the used set;
the returned used set is the used set minus the defined list; and a
keyword line without a following identifier makes the parse raise. -/
theorem c6_parser_refines (lines : List Str) :
    parse_modules lines = parseModulesSpec lines :=
  pmGo_congr lineAct lineActSpec lineAct_eq_spec lines 0 [] []

end Fcompile
